import Mathlib

/-!
Verification development for a TSP solver repository.

The repository contains three tour solvers over `TSPInstance` data
(an exact Held–Karp bitmask DP, an MST-based 2-approximation, and a
hybrid heuristic / branch-and-bound solver) together with a distance
oracle and a tour evaluator.  This file gives a shallow embedding of
those Python functions and proves or refutes the specified properties.

Modelling conventions:
* Python floats are modelled as exact rationals `ℚ`; `float('inf')`
  is modelled as `⊤` in `WithTop ℚ`.
* `math.sqrt` is modelled as an abstract parameter `sq : ℚ → ℚ`
  applied to the exact radicand, mirroring that the code applies one
  fixed deterministic square-root routine.
* Python wall-clock time (`time.time() - start_time`) is modelled as
  an oracle `elapsed : Nat → ℚ` giving the elapsed time observed at
  the k-th cutoff check.
* Python exceptions are modelled with `Except`; functions that cannot
  raise return plain values.
* Python `while` loops that structurally terminate in the code are
  modelled with an explicit fuel argument where Lean needs one; call
  sites pass fuel that provably exceeds the loop depth.
-/

/-- Model of the Python class `TSPInstance` (utils, TSP file parsing
module): point coordinates, an optional precomputed distance matrix
(empty for large instances), the dimension, and the large-instance
flag. -/
structure TSPInstance where
  name : String
  coordinates : List (ℚ × ℚ)
  distance_matrix : List (List ℚ)
  dimension : Nat
  large_instance : Bool
deriving DecidableEq, Repr

/-- Read entry `(i, j)` of a row-major matrix.  All verified call
sites access entries in range, so the out-of-range default `0` is
never observable there. -/
def mat_get (m : List (List ℚ)) (i j : Nat) : ℚ :=
  (m.getD i []).getD j 0

/-- Python `euclidean_distance`: `sqrt((x1-x2)**2 + (y1-y2)**2)`,
with `math.sqrt` abstracted as `sq`. -/
def euclidean_distance (sq : ℚ → ℚ) (c1 c2 : ℚ × ℚ) : ℚ :=
  sq ((c1.1 - c2.1) ^ 2 + (c1.2 - c2.2) ^ 2)

/-- Python `manhattan_distance`: `abs(x1-x2) + abs(y1-y2)`. -/
def manhattan_distance (c1 c2 : ℚ × ℚ) : ℚ :=
  |c1.1 - c2.1| + |c1.2 - c2.2|

/-- Python `TSPInstance.get_distance`: on-demand Euclidean distance
for large instances, otherwise a matrix lookup. -/
def TSPInstance.get_distance (self : TSPInstance) (sq : ℚ → ℚ) (i j : Nat) : ℚ :=
  if self.large_instance then
    euclidean_distance sq (self.coordinates.getD i (0, 0)) (self.coordinates.getD j (0, 0))
  else
    mat_get self.distance_matrix i j

/-- Set entry `(i, j)` of a row-major matrix (Python
`matrix[i][j] = v`). -/
def mat_set (m : List (List ℚ)) (i j : Nat) (v : ℚ) : List (List ℚ) :=
  m.set i ((m.getD i []).set j v)

/-- The strict upper-triangle index pairs `(i, j)`, `i < j < n`,
in the order of the Python nested loops
`for i in range(n): for j in range(i+1, n)`. -/
def upperPairs (n : Nat) : List (Nat × Nat) :=
  (List.range n).flatMap (fun i => (List.range' (i + 1) (n - (i + 1))).map (fun j => (i, j)))

/-- Python `calculate_distance_matrix`: starts from an `n × n` zero
matrix and, for each `i < j`, writes the computed distance to both
`(i, j)` and `(j, i)`. -/
def calculate_distance_matrix (sq : ℚ → ℚ) (coordinates : List (ℚ × ℚ))
    (edge_weight_type : String) : List (List ℚ) :=
  let n := coordinates.length
  let m0 := List.replicate n (List.replicate n (0 : ℚ))
  upperPairs n |>.foldl (fun m ij =>
    let c1 := coordinates.getD ij.1 (0, 0)
    let c2 := coordinates.getD ij.2 (0, 0)
    let dist :=
      if edge_weight_type = "EUC_2D" then euclidean_distance sq c1 c2
      else if edge_weight_type = "MAN_2D" then manhattan_distance c1 c2
      else euclidean_distance sq c1 c2
    mat_set (mat_set m ij.1 ij.2 dist) ij.2 ij.1 dist) m0

/-- The error raised by `calculate_tour_cost` when neither a distance
matrix nor an instance is supplied
(`ValueError("distance_matrix or instance parameter required")`). -/
inductive EvalError where
  | missingDistanceSource
deriving DecidableEq, Repr

/-- One distance lookup inside `calculate_tour_cost`: prefer the
instance when it is present and large, then the matrix, else raise. -/
def evalPairDist (sq : ℚ → ℚ) (distance_matrix : Option (List (List ℚ)))
    (instance_ : Option TSPInstance) (a b : Nat) : Except EvalError ℚ :=
  match instance_ with
  | some inst =>
    if inst.large_instance then .ok (inst.get_distance sq a b)
    else match distance_matrix with
      | some m => .ok (mat_get m a b)
      | none => .error .missingDistanceSource
  | none =>
    match distance_matrix with
    | some m => .ok (mat_get m a b)
    | none => .error .missingDistanceSource

/-- Sum of the looked-up distances of a list of index pairs, raising
as soon as a lookup raises (the loop body of `calculate_tour_cost`). -/
def evalSumDists (sq : ℚ → ℚ) (distance_matrix : Option (List (List ℚ)))
    (instance_ : Option TSPInstance) : List (Nat × Nat) → Except EvalError ℚ
  | [] => .ok 0
  | ab :: rest => do
    let d ← evalPairDist sq distance_matrix instance_ ab.1 ab.2
    let s ← evalSumDists sq distance_matrix instance_ rest
    .ok (d + s)

/-- The consecutive (cyclically closed) index pairs
`(tour[i], tour[(i+1) % n])` for `i` in `range(n)`. -/
def tourEdgePairs (tour : List Nat) : List (Nat × Nat) :=
  (List.range tour.length).map (fun i =>
    (tour.getD i 0, tour.getD ((i + 1) % tour.length) 0))

/-- Python `calculate_tour_cost` (utils, evaluator module): returns
`float('inf')` for an empty tour, otherwise sums the cyclic edge
distances; raises `ValueError` only when it has neither a matrix nor
an instance to look distances up in. -/
def calculate_tour_cost (sq : ℚ → ℚ) (tour : List Nat)
    (distance_matrix : Option (List (List ℚ)))
    (instance_ : Option TSPInstance) : Except EvalError (WithTop ℚ) :=
  if tour = [] then .ok ⊤
  else (evalSumDists sq distance_matrix instance_ (tourEdgePairs tour)).map
    (fun s => (s : WithTop ℚ))

/-- Extract the value of a non-raising `calculate_tour_cost` call;
every solver call site supplies a distance matrix, so the error
branch is unreachable there (see `calculate_tour_cost_matrix_ok`). -/
def tour_cost_value (r : Except EvalError (WithTop ℚ)) : WithTop ℚ :=
  match r with
  | .ok c => c
  | .error _ => ⊤

/-- Python `is_valid_tour`: the tour has exactly `n_cities` entries
and its set of values is `set(range(n_cities))`. -/
def is_valid_tour (tour : List Nat) (n_cities : Nat) : Bool :=
  tour.length = n_cities ∧ tour.toFinset = Finset.range n_cities

/-- With a distance matrix supplied, `calculate_tour_cost` never
raises. -/
theorem calculate_tour_cost_matrix_ok (sq : ℚ → ℚ) (tour : List Nat)
    (m : List (List ℚ)) (instance_ : Option TSPInstance) :
    calculate_tour_cost sq tour (some m) instance_ =
      .ok (tour_cost_value (calculate_tour_cost sq tour (some m) instance_)) := by
  have hsum : ∀ l : List (Nat × Nat),
      ∃ s : ℚ, evalSumDists sq (some m) instance_ l = .ok s := by
    intro l
    induction l with
    | nil => exact ⟨0, rfl⟩
    | cons ab rest ih =>
      obtain ⟨s, hs⟩ := ih
      cases instance_ with
      | none => exact ⟨mat_get m ab.1 ab.2 + s, by simp [evalSumDists, evalPairDist, hs, Bind.bind, Except.bind]⟩
      | some inst =>
        by_cases hL : inst.large_instance
        · exact ⟨inst.get_distance sq ab.1 ab.2 + s, by
            simp [evalSumDists, evalPairDist, hL, hs, Bind.bind, Except.bind]⟩
        · exact ⟨mat_get m ab.1 ab.2 + s, by
            simp [evalSumDists, evalPairDist, hL, hs, Bind.bind, Except.bind]⟩
  by_cases h : tour = []
  · simp [calculate_tour_cost, h, tour_cost_value]
  · obtain ⟨s, hs⟩ := hsum (tourEdgePairs tour)
    simp [calculate_tour_cost, h, hs, tour_cost_value, Except.map]

/-- The Python inline popcount loop
(`while temp > 0: bits_count += temp & 1; temp >>= 1`), fueled for
structural termination: `fuel = m` always suffices because halving
`m` reaches `0` within `m` steps. -/
def bitCountAux : Nat → Nat → Nat
  | 0, _ => 0
  | fuel + 1, m => if m = 0 then 0 else bitCountAux fuel (m / 2) + m % 2

/-- Number of set bits of a natural number. -/
def bitCount (m : Nat) : Nat := bitCountAux m m

/-- The running strict minimum of the Python pattern
`if cost < min_cost: min_cost, best = cost, candidate`, starting from
`min_cost = float('inf')`: the first strictly smallest entry wins. -/
def minFold (l : List (ℚ × Nat)) : Option (ℚ × Nat) :=
  l.foldl (fun acc cp =>
    match acc with
    | none => some cp
    | some best => if cp.1 < best.1 then some cp else some best) none

/-- Clearing a set bit strictly decreases a natural number. -/
theorem xor_shift_lt (mask i : Nat) (h : Nat.testBit mask i = true) :
    mask ^^^ (1 <<< i) < mask := by
  have h1 : (1 : Nat) <<< i = 2 ^ i := by rw [Nat.shiftLeft_eq, one_mul]
  rw [h1]
  refine Nat.lt_of_testBit i ?_ h ?_
  · rw [Nat.testBit_xor, h, Nat.testBit_two_pow]
    simp
  · intro j hj
    rw [Nat.testBit_xor, Nat.testBit_two_pow]
    simp [Nat.ne_of_lt hj]

/-- The Held–Karp table of `held_karp_simple`: `hkDP d n mask last`
is the entry `dp[(mask, last)], parent[(mask, last)]` of the Python
dicts, `none` when the key is absent.  Keys of two set bits are the
base cases `dp[(1 | 1 << i, i)] = dist[0][i]`; larger keys are filled
from the submask with the last point's bit cleared; the Python
iteration by increasing subset size corresponds to this recursion on
the submask.  The bound `mask < 2 ^ n` reflects that the Python loop
enumerates masks in `range(1 << n)` (and subset sizes up to `n`). -/
def hkDP (d : Nat → Nat → ℚ) (n : Nat) (mask last : Nat) : Option (ℚ × Nat) :=
  if 1 ≤ last ∧ last < n ∧ mask = 1 ||| (1 <<< last) then some (d 0 last, 0)
  else if h : mask < 2 ^ n ∧ Nat.testBit mask 0 = true ∧ Nat.testBit mask last = true ∧
      1 ≤ last ∧ last < n ∧ 3 ≤ bitCount mask then
    minFold ((List.range n).filterMap (fun prev =>
      if prev = last ∨ Nat.testBit (mask ^^^ (1 <<< last)) prev = false then none
      else
        have : mask ^^^ (1 <<< last) < mask := xor_shift_lt mask last h.2.2.1
        (hkDP d n (mask ^^^ (1 <<< last)) prev).map
          (fun cp => (cp.1 + d prev last, prev))))
  else none
termination_by mask

/-- The closing stage of `held_karp_simple`: minimize
`dp[(final_mask, i)] + dist[i][0]` over `i in range(1, n)` with keys
present, returning `(min_cost, last_city)`; `none` models
`last_city == -1`. -/
def hkFinal (d : Nat → Nat → ℚ) (n : Nat) : Option (ℚ × Nat) :=
  minFold ((List.range' 1 (n - 1)).filterMap (fun i =>
    (hkDP d n ((1 <<< n) - 1) i).map (fun cp => (cp.1 + d i 0, i))))

/-- The parent pointer of a filled Held–Karp key. -/
def hkParent (d : Nat → Nat → ℚ) (n : Nat) (mask curr : Nat) : Option Nat :=
  (hkDP d n mask curr).map (fun cp => cp.2)

/-- The path-reconstruction loop of `held_karp_simple`
(`while mask and curr != -1: path.append(curr); ...`), producing the
backward path before the final reverse.  `curr` is a `Nat` because
parent pointers are never `-1` once the loop is entered.  The fuel
argument only serves Lean's termination; the verified call sites pass
fuel exceeding the popcount of `mask`, which bounds the number of
iterations. -/
def hkPathAux (parent : Nat → Nat → Option Nat) : Nat → Nat → Nat → List Nat
  | 0, _, _ => []
  | fuel + 1, mask, curr =>
    if mask = 0 then []
    else
      curr :: (match parent mask curr with
        | none => []
        | some nxt => hkPathAux parent fuel (mask ^^^ (1 <<< curr)) nxt)

/-- Python `held_karp_simple` (Held–Karp module): sentinel
`([], inf)` for `n > 20` or when no full-set DP state exists;
otherwise reconstructs the optimal path from the parent pointers,
appends the anchor `0` when missing, reverses, and reports the cost
recomputed by `calculate_tour_cost(path, dist)`.  The square-root
routine passed to the evaluator is irrelevant here because no
instance argument is supplied. -/
def held_karp_simple (tsp_data : TSPInstance) : List Nat × WithTop ℚ :=
  let n := tsp_data.dimension
  let dist := mat_get tsp_data.distance_matrix
  if 20 < n then ([], ⊤)
  else
    match hkFinal dist n with
    | none => ([], ⊤)
    | some cl =>
      let path0 := hkPathAux (hkParent dist n) (n + 1) ((1 <<< n) - 1) cl.2
      let path1 := if path0 = [] ∨ path0.getLast? ≠ some 0 then path0 ++ [0] else path0
      (path1.reverse,
        tour_cost_value (calculate_tour_cost (fun q => q) path1.reverse
          (some tsp_data.distance_matrix) none))

/-- Python `solve_held_karp` forwards to `held_karp_simple`
(the `limit` parameter is ignored). -/
def solve_held_karp (tsp_data : TSPInstance) (_limit : Nat) : List Nat × WithTop ℚ :=
  held_karp_simple tsp_data

/-- C7: for every instance with dimension `n > 20`, the Exact Solver
`held_karp_simple` returns the sentinel pair (empty tour, positive
infinity) instead of computing a tour. -/
theorem held_karp_large_sentinel (tsp_data : TSPInstance)
    (h : 20 < tsp_data.dimension) :
    held_karp_simple tsp_data = ([], ⊤) := by
  simp [held_karp_simple, h]

/-- Witness for C7 at a concrete 21-point instance. -/
theorem held_karp_large_sentinel_witness :
    held_karp_simple ⟨"w21", [], [], 21, false⟩ = ([], ⊤) :=
  held_karp_large_sentinel ⟨"w21", [], [], 21, false⟩ (by norm_num)

/-- C10: for every instance with dimension `n ≤ 1` the Exact Solver
also returns the sentinel pair (empty tour, positive infinity), even
though `n ≤ 20`: no full-set DP state with a last point distinct from
the anchor `0` exists, so `last_city` stays `-1`. -/
theorem held_karp_tiny_sentinel (tsp_data : TSPInstance)
    (h : tsp_data.dimension ≤ 1) :
    held_karp_simple tsp_data = ([], ⊤) := by
  have h20 : ¬ 20 < tsp_data.dimension := by omega
  have h1 : tsp_data.dimension - 1 = 0 := by omega
  simp [held_karp_simple, h20, hkFinal, h1, minFold]

/-- Witness for C10 at a concrete 1-point instance. -/
theorem held_karp_tiny_sentinel_witness :
    held_karp_simple ⟨"w1", [(0, 0)], [[0]], 1, false⟩ = ([], ⊤) :=
  held_karp_tiny_sentinel ⟨"w1", [(0, 0)], [[0]], 1, false⟩ (by norm_num)

/-- The error raised by the MST solvers on fewer than 3 cities
(`ValueError("Too few cities")`); this is the specification's
invalid-input `TooFewPointsError` kind. -/
inductive SolverError where
  | tooFewCities
deriving DecidableEq, Repr

/-- The distance switch inlined throughout the MST module: on-demand
`get_distance` for large instances, otherwise a matrix lookup. -/
def mstDist (sq : ℚ → ℚ) (tsp_instance : TSPInstance) (a b : Nat) : ℚ :=
  if tsp_instance.large_instance then tsp_instance.get_distance sq a b
  else mat_get tsp_instance.distance_matrix a b

/-- The mutable arrays of the Prim loop in `solve_mst_prim`. -/
structure PrimState where
  is_visited : List Bool
  min_cost : List ℚ
  parent_node : List Int
  tree_edges : List (Nat × Nat)

/-- The selection loop of `solve_mst_prim`: the first unvisited node
of strictly smallest known cost (`current_min == -1` is `none`). -/
def primSelect (is_visited : List Bool) (min_cost : List ℚ) (n : Nat) : Option Nat :=
  (List.range n).foldl (fun current_min node =>
    if is_visited.getD node false = false then
      match current_min with
      | none => some node
      | some cm =>
        if min_cost.getD node 0 < min_cost.getD cm 0 then some node else current_min
    else current_min) none

/-- One iteration of the outer `for step in range(num_cities)` loop of
`solve_mst_prim`: select, mark visited, record the tree edge when a
parent exists, then relax all unvisited neighbours.  The `none`
branch of the selection is unreachable: the loop runs exactly
`dimension` times and each iteration marks one previously unvisited
node, so an unvisited node always exists. -/
def primStep (sq : ℚ → ℚ) (tsp_instance : TSPInstance) (st : PrimState) : PrimState :=
  let n := tsp_instance.dimension
  match primSelect st.is_visited st.min_cost n with
  | none => st
  | some current_min =>
    let is_visited := st.is_visited.set current_min true
    let tree_edges :=
      if st.parent_node.getD current_min (-1) ≠ -1 then
        st.tree_edges ++ [((st.parent_node.getD current_min (-1)).toNat, current_min)]
      else st.tree_edges
    let mp := (List.range n).foldl (fun (mp : List ℚ × List Int) neighbor =>
      if is_visited.getD neighbor false = false then
        let distance := mstDist sq tsp_instance current_min neighbor
        if distance < mp.1.getD neighbor 0 then
          (mp.1.set neighbor distance, mp.2.set neighbor (Int.ofNat current_min))
        else mp
      else mp) (st.min_cost, st.parent_node)
    ⟨is_visited, mp.1, mp.2, tree_edges⟩

/-- The full Prim loop of `solve_mst_prim`: arrays initialised to
unvisited / `999999` (with `min_cost[0] = 0`) / parent `-1`, then
`dimension` iterations of `primStep`. -/
def primRun (sq : ℚ → ℚ) (tsp_instance : TSPInstance) : PrimState :=
  let n := tsp_instance.dimension
  let init : PrimState :=
    ⟨List.replicate n false, (List.replicate n (999999 : ℚ)).set 0 0,
      List.replicate n (-1), []⟩
  (List.range n).foldl (fun st _ => primStep sq tsp_instance st) init

/-- Total length of all adjacency lists. -/
def adjTotal (adj : List (List Nat)) : Nat := (adj.map List.length).sum

/-- The stack-based DFS loop of `build_tour_from_mst`.  The Python
stack grows at its tail; here the list head is the stack top.  Each
iteration either consumes one directed edge (`.pop()` from the
current adjacency list, i.e. its last entry) and pushes its endpoint,
or pops the exhausted top onto the traversal output.  The fuel only
serves structural termination: a push decreases
`2 * adjTotal adj + stack.length` by one and a pop decreases it by
one, so the fuel passed by `build_tour_from_mst` is never
exhausted. -/
def dfsLoop (adj : List (List Nat)) (stack : List Nat) (out : List Nat) :
    Nat → List Nat
  | 0 => out
  | fuel + 1 =>
    match stack with
    | [] => out
    | cur :: rest =>
      match (adj.getD cur []).getLast? with
      | some next_city =>
        dfsLoop (adj.set cur (adj.getD cur []).dropLast) (next_city :: cur :: rest) out fuel
      | none => dfsLoop adj rest (out ++ [cur]) fuel

/-- Python `build_tour_from_mst`: double the tree edges into a
directed multigraph adjacency structure, run the stack DFS from city
0, reverse the pop order, keep the first occurrence of every city,
append the cities never reached in increasing order, and price the
cycle with `calculate_tour_cost`. -/
def build_tour_from_mst (sq : ℚ → ℚ) (mst_edges : List (Nat × Nat)) (n : Nat)
    (tsp_instance : TSPInstance) : List Nat × WithTop ℚ :=
  let doubled_edges := mst_edges.flatMap (fun e => [(e.1, e.2), (e.2, e.1)])
  let adjacency_lists := doubled_edges.foldl
    (fun adj e => adj.set e.1 (adj.getD e.1 [] ++ [e.2])) (List.replicate n ([] : List Nat))
  let traversal_path := dfsLoop adjacency_lists [0] [] (2 * adjTotal adjacency_lists + 1)
  let reversed_path := traversal_path.reverse
  let fo := reversed_path.foldl (fun (acc : List Nat × List Bool) c =>
    if acc.2.getD c false = true then acc
    else (acc.1 ++ [c], acc.2.set c true)) ([], List.replicate n false)
  let hamiltonian_cycle := fo.1 ++ (List.range n).filter (fun c => acc_unvisited fo.2 c)
  (hamiltonian_cycle,
    tour_cost_value (calculate_tour_cost sq hamiltonian_cycle
      (some tsp_instance.distance_matrix) (some tsp_instance)))
where
  acc_unvisited (visited : List Bool) (c : Nat) : Bool := visited.getD c false = false

/-- Python `solve_mst_prim`: raise below 3 cities, else run the Prim
loop and convert its tree edges to a tour. -/
def solve_mst_prim (sq : ℚ → ℚ) (tsp_instance : TSPInstance) :
    Except SolverError (List Nat × WithTop ℚ) :=
  if tsp_instance.dimension < 3 then .error .tooFewCities
  else .ok (build_tour_from_mst sq (primRun sq tsp_instance).tree_edges
    tsp_instance.dimension tsp_instance)

/-- The candidate edge list of `solve_mst_kruskal`: one weighted
tuple `(weight, city1, city2)` per unordered pair `city1 < city2`,
in the Python nested-loop order. -/
def kruskalEdges (sq : ℚ → ℚ) (tsp_instance : TSPInstance) : List (ℚ × Nat × Nat) :=
  let n := tsp_instance.dimension
  (List.range n).flatMap (fun city1 =>
    (List.range' (city1 + 1) (n - (city1 + 1))).map (fun city2 =>
      (mstDist sq tsp_instance city1 city2, city1, city2)))

/-- Lexicographic comparison of weighted edge tuples: Python's
built-in tuple ordering used by `sorted_edges.sort()`. -/
def edgeTupleLe (a b : ℚ × Nat × Nat) : Bool :=
  decide (a.1 < b.1 ∨ (a.1 = b.1 ∧
    (a.2.1 < b.2.1 ∨ (a.2.1 = b.2.1 ∧ a.2.2 ≤ b.2.2))))

/-- Python `find_root` with path compression, returning the root and
the updated parent array.  The recursion is fueled: every verified
call passes fuel `node_parent.length`, which bounds the parent-chain
length whenever the parent pointers are acyclic, as they always are
for arrays produced by `connect_nodes`. -/
def find_root (fuel : Nat) (node_parent : List Nat) (node : Nat) : Nat × List Nat :=
  match fuel with
  | 0 => (node, node_parent)
  | fuel + 1 =>
    if node_parent.getD node node ≠ node then
      let r := find_root fuel node_parent (node_parent.getD node node)
      (r.1, r.2.set node r.1)
    else (node, node_parent)

/-- Python `connect_nodes`: union by root redirection; reports
whether the two nodes were in different components. -/
def connect_nodes (node_parent : List Nat) (node1 node2 : Nat) : Bool × List Nat :=
  let r1 := find_root node_parent.length node_parent node1
  let r2 := find_root r1.2.length r1.2 node2
  if r1.1 ≠ r2.1 then (true, r2.2.set r1.1 r2.1) else (false, r2.2)

/-- The selection loop of `solve_mst_kruskal`: scan the sorted edges,
keep those joining different components, stop after
`total_cities - 1` selected edges. -/
def kruskalSelect (total_cities : Nat) : List Nat → List (Nat × Nat) →
    List (ℚ × Nat × Nat) → List (Nat × Nat)
  | _, selected_edges, [] => selected_edges
  | node_parent, selected_edges, (_, node1, node2) :: rest =>
    let c := connect_nodes node_parent node1 node2
    if c.1 then
      let selected1 := selected_edges ++ [(node1, node2)]
      if selected1.length = total_cities - 1 then selected1
      else kruskalSelect total_cities c.2 selected1 rest
    else kruskalSelect total_cities c.2 selected_edges rest

/-- Python `solve_mst_kruskal`: raise below 3 cities, else sort all
candidate edges, select a spanning forest by union-find, and convert
the selected edges to a tour. -/
def solve_mst_kruskal (sq : ℚ → ℚ) (tsp_instance : TSPInstance) :
    Except SolverError (List Nat × WithTop ℚ) :=
  if tsp_instance.dimension < 3 then .error .tooFewCities
  else
    let sorted_edges := (kruskalEdges sq tsp_instance).mergeSort edgeTupleLe
    let selected_edges := kruskalSelect tsp_instance.dimension
      (List.range tsp_instance.dimension) [] sorted_edges
    .ok (build_tour_from_mst sq selected_edges tsp_instance.dimension tsp_instance)

/-- Python `solve_mst_approx`: below 500 cities run both
constructions and keep the cheaper tour (ties favour Prim); from 500
cities on, run Prim only.  An exception from either construction
propagates. -/
def solve_mst_approx (sq : ℚ → ℚ) (tsp_instance : TSPInstance) :
    Except SolverError (List Nat × WithTop ℚ) :=
  if tsp_instance.dimension < 500 then do
    let prim_result ← solve_mst_prim sq tsp_instance
    let kruskal_result ← solve_mst_kruskal sq tsp_instance
    if prim_result.2 ≤ kruskal_result.2 then .ok prim_result else .ok kruskal_result
  else solve_mst_prim sq tsp_instance

/-- C8: on every instance with dimension `n < 3` (in particular
`n = 2`), `solve_mst_prim`, `solve_mst_kruskal` and `solve_mst_approx`
all raise the invalid-input too-few-points error instead of returning
a tour or a sentinel. -/
theorem mst_too_few_points (sq : ℚ → ℚ) (tsp_instance : TSPInstance)
    (h : tsp_instance.dimension < 3) :
    solve_mst_prim sq tsp_instance = .error .tooFewCities ∧
    solve_mst_kruskal sq tsp_instance = .error .tooFewCities ∧
    solve_mst_approx sq tsp_instance = .error .tooFewCities := by
  have h500 : tsp_instance.dimension < 500 := by omega
  refine ⟨by simp [solve_mst_prim, h], by simp [solve_mst_kruskal, h], ?_⟩
  simp [solve_mst_approx, solve_mst_prim, h500, h, Bind.bind, Except.bind]

/-- Witness for C8 at a concrete 2-point instance. -/
theorem mst_too_few_points_witness :
    solve_mst_prim (fun q => q) ⟨"w2", [(0, 0), (1, 0)], [[0, 1], [1, 0]], 2, false⟩ =
      .error .tooFewCities ∧
    solve_mst_kruskal (fun q => q) ⟨"w2", [(0, 0), (1, 0)], [[0, 1], [1, 0]], 2, false⟩ =
      .error .tooFewCities ∧
    solve_mst_approx (fun q => q) ⟨"w2", [(0, 0), (1, 0)], [[0, 1], [1, 0]], 2, false⟩ =
      .error .tooFewCities :=
  mst_too_few_points (fun q => q) ⟨"w2", [(0, 0), (1, 0)], [[0, 1], [1, 0]], 2, false⟩
    (by norm_num)

/-- The module-level `get_distance` helper of the hybrid-solver
module: on-demand lookup for large instances, else the matrix. -/
def get_distance (sq : ℚ → ℚ) (tsp_instance : TSPInstance) (i j : Nat) : ℚ :=
  if tsp_instance.large_instance then tsp_instance.get_distance sq i j
  else mat_get tsp_instance.distance_matrix i j

/-- Python `min(xs, key=f)` over a nonempty collection: the first
element of strictly smallest key wins. -/
def min_by_key (f : Nat → ℚ) (x : Nat) (xs : List Nat) : Nat :=
  xs.foldl (fun best c => if f c < f best then c else best) x

/-- Python `max(xs, key=f)` over a nonempty collection: the first
element of strictly largest key wins. -/
def max_by_key (f : Nat → ℚ) (x : Nat) (xs : List Nat) : Nat :=
  xs.foldl (fun best c => if f best < f c then c else best) x

/-- `min_by_key` returns an element of the collection. -/
theorem min_by_key_mem (f : Nat → ℚ) (x : Nat) (xs : List Nat) :
    min_by_key f x xs ∈ x :: xs := by
  suffices h : ∀ a, min_by_key f a xs = a ∨ min_by_key f a xs ∈ xs by
    rcases h x with h1 | h1
    · simp [h1]
    · exact List.mem_cons_of_mem _ h1
  unfold min_by_key
  induction xs with
  | nil => simp
  | cons c cs ih =>
    intro a
    simp only [List.foldl_cons]
    by_cases hc : f c < f a
    · simp only [if_pos hc]
      rcases ih c with h1 | h1
      · right; simp [h1]
      · right; exact List.mem_cons_of_mem _ h1
    · simp only [if_neg hc]
      rcases ih a with h1 | h1
      · left; exact h1
      · right; exact List.mem_cons_of_mem _ h1

/-- `max_by_key` returns an element of the collection. -/
theorem max_by_key_mem (f : Nat → ℚ) (x : Nat) (xs : List Nat) :
    max_by_key f x xs ∈ x :: xs := by
  suffices h : ∀ a, max_by_key f a xs = a ∨ max_by_key f a xs ∈ xs by
    rcases h x with h1 | h1
    · simp [h1]
    · exact List.mem_cons_of_mem _ h1
  unfold max_by_key
  induction xs with
  | nil => simp
  | cons c cs ih =>
    intro a
    simp only [List.foldl_cons]
    by_cases hc : f a < f c
    · simp only [if_pos hc]
      rcases ih c with h1 | h1
      · right; simp [h1]
      · right; exact List.mem_cons_of_mem _ h1
    · simp only [if_neg hc]
      rcases ih a with h1 | h1
      · left; exact h1
      · right; exact List.mem_cons_of_mem _ h1

/-- The greedy loop of `nearest_neighbor_tour`: repeatedly move to
the closest unvisited city, returning the visit order after the
start city.  The unvisited collection is kept as an ascending list,
matching iteration order over the Python set of small integers. -/
def nnLoop (sq : ℚ → ℚ) (tsp_instance : TSPInstance) :
    List Nat → Nat → List Nat
  | [], _ => []
  | u :: us, current =>
    let nearest := min_by_key (fun city => get_distance sq tsp_instance current city) u us
    have : ((u :: us).erase nearest).length < (u :: us).length := by
      have hm : nearest ∈ u :: us := min_by_key_mem _ u us
      have := List.length_erase_of_mem hm
      simp only [this]
      simp
    nearest :: nnLoop sq tsp_instance ((u :: us).erase nearest) nearest
termination_by unvisited => unvisited.length

/-- Python `nearest_neighbor_tour`: start at `start`, visit greedily,
price the resulting cycle with `calculate_tour_cost`. -/
def nearest_neighbor_tour (sq : ℚ → ℚ) (tsp_instance : TSPInstance) (start : Nat) :
    List Nat × WithTop ℚ :=
  let n := tsp_instance.dimension
  let unvisited := (List.range n).filter (fun c => c ≠ start)
  let tour := start :: nnLoop sq tsp_instance unvisited start
  (tour, tour_cost_value (calculate_tour_cost sq tour
    (some tsp_instance.distance_matrix) (some tsp_instance)))

/-- The selection key of `farthest_insertion_tour`:
`min(get_distance(city, tour_city) for tour_city in tour)`.  The
empty-tour branch is unreachable because the tour always holds at
least the two seed cities. -/
def fi_key (sq : ℚ → ℚ) (tsp_instance : TSPInstance) (tour : List Nat) (city : Nat) : ℚ :=
  match tour with
  | [] => 0
  | t :: ts => ts.foldl (fun m tour_city =>
      min m (get_distance sq tsp_instance city tour_city))
      (get_distance sq tsp_instance city t)

/-- The insertion-position scan of `farthest_insertion_tour`:
minimize the cost increase of replacing edge `(tour[i], tour[j])`,
`j = (i+1) % len(tour)`, by the two edges through `best_city`;
`best_increase` starts at `float('inf')` and the first strict
improvement wins, so `best_pos = i + 1` for the first minimizing
`i`. -/
def fi_insert_pos (sq : ℚ → ℚ) (tsp_instance : TSPInstance)
    (tour : List Nat) (best_city : Nat) : Nat :=
  ((List.range tour.length).foldl (fun (acc : Nat × WithTop ℚ) i =>
    let j := (i + 1) % tour.length
    let increase : ℚ := get_distance sq tsp_instance (tour.getD i 0) best_city +
      get_distance sq tsp_instance best_city (tour.getD j 0) -
      get_distance sq tsp_instance (tour.getD i 0) (tour.getD j 0)
    if (increase : WithTop ℚ) < acc.2 then (i + 1, (increase : WithTop ℚ)) else acc)
    (0, (⊤ : WithTop ℚ))).1

/-- The insertion loop of `farthest_insertion_tour`: repeatedly pick
the unvisited city farthest from the tour and insert it at its
cheapest position. -/
def fiLoop (sq : ℚ → ℚ) (tsp_instance : TSPInstance) :
    List Nat → List Nat → List Nat
  | tour, [] => tour
  | tour, u :: us =>
    let best_city := max_by_key (fi_key sq tsp_instance tour) u us
    let best_pos := fi_insert_pos sq tsp_instance tour best_city
    have : ((u :: us).erase best_city).length < (u :: us).length := by
      have hm : best_city ∈ u :: us := max_by_key_mem _ u us
      have := List.length_erase_of_mem hm
      simp only [this]
      simp
    fiLoop sq tsp_instance (tour.insertIdx best_pos best_city) ((u :: us).erase best_city)
termination_by _ unvisited => unvisited.length

/-- Python `farthest_insertion_tour`: fall back to nearest-neighbour
for `n ≤ 2`; otherwise seed with `start` and the city farthest from
it, then run the insertion loop.  The empty-unvisited match arm is
unreachable since `n > 2` leaves at least two cities besides
`start`. -/
def farthest_insertion_tour (sq : ℚ → ℚ) (tsp_instance : TSPInstance) (start : Nat) :
    List Nat × WithTop ℚ :=
  let n := tsp_instance.dimension
  if n ≤ 2 then nearest_neighbor_tour sq tsp_instance start
  else
    match (List.range n).filter (fun c => c ≠ start) with
    | [] => ([start], tour_cost_value (calculate_tour_cost sq [start]
        (some tsp_instance.distance_matrix) (some tsp_instance)))
    | u :: us =>
      let farthest := max_by_key
        (fun city => get_distance sq tsp_instance start city) u us
      let tour := fiLoop sq tsp_instance [start, farthest] ((u :: us).erase farthest)
      (tour, tour_cost_value (calculate_tour_cost sq tour
        (some tsp_instance.distance_matrix) (some tsp_instance)))

/-- Multiplication by the Python float literal `0.5`, preserving
`float('inf')`. -/
def mulHalf (x : WithTop ℚ) : WithTop ℚ := x.map (fun q => q * (1 / 2))

/-- Python `bound_calculation` of `simple_branch_bound`: zero when at
most one city remains, else half the sum over remaining cities of
each city's minimum distance to another remaining city.  The inner
minimum starts from `float('inf')` and indices (not values) are
compared, exactly as the Python double loop over
`range(len(cities))`. -/
def bound_calculation (sq : ℚ → ℚ) (tsp_instance : TSPInstance)
    (remaining : List Nat) : WithTop ℚ :=
  if remaining.length ≤ 1 then 0
  else
    let cities := remaining
    let min_cost := (List.range cities.length).foldl (fun acc i =>
      let min_edge := (List.range cities.length).foldl (fun me j =>
        if i ≠ j then
          min me ((get_distance sq tsp_instance (cities.getD i 0) (cities.getD j 0) :
            WithTop ℚ))
        else me) (⊤ : WithTop ℚ)
      acc + min_edge) (0 : WithTop ℚ)
    mulHalf min_cost

/-- The mutable search context of `simple_branch_bound`
(`best_tour`, `best_cost`, `nodes_checked`, all updated through the
recursion via `nonlocal`). -/
structure BBState where
  best_tour : List Nat
  best_cost : WithTop ℚ
  nodes_checked : Nat
deriving DecidableEq

/-- Python `branch_bound_recursive`: count the node, stop on the
wall-clock or node-budget cutoff, record a finished permutation when
it beats the best cost (note: `current_cost` holds only the path
edges, with no closing edge back to city 0), else prune on the lower
bound and expand the children that individually stay below the best
cost.  The fuel argument only serves Lean's termination: recursion
depth is bounded by the number of remaining cities, and every
verified call supplies fuel exceeding it. -/
def branch_bound_recursive (sq : ℚ → ℚ) (tsp_instance : TSPInstance)
    (elapsed : Nat → ℚ) (time_limit : ℚ) :
    Nat → List Nat → List Nat → ℚ → BBState → BBState
  | 0, _, _, _, st => st
  | fuel + 1, current_tour, remaining, current_cost, st0 =>
    let st := { st0 with nodes_checked := st0.nodes_checked + 1 }
    if elapsed st.nodes_checked > time_limit ∨ st.nodes_checked > 50000 then st
    else if remaining = [] then
      if (current_cost : WithTop ℚ) < st.best_cost then
        { st with best_tour := current_tour, best_cost := (current_cost : WithTop ℚ) }
      else st
    else
      let bound := (current_cost : WithTop ℚ) +
        bound_calculation sq tsp_instance remaining
      if st.best_cost ≤ bound then st
      else
        let current_city := (current_tour.getLast?).getD 0
        remaining.foldl (fun s next_city =>
          let new_cost := current_cost +
            get_distance sq tsp_instance current_city next_city
          if (new_cost : WithTop ℚ) < s.best_cost then
            branch_bound_recursive sq tsp_instance elapsed time_limit fuel
              (current_tour ++ [next_city]) (remaining.erase next_city) new_cost s
          else s) st

/-- Python `simple_branch_bound`: seed the best-known solution with
the nearest-neighbour tour, return it unsearched for `n > 15`, else
run the bounded search from the partial tour `[0]` over
`set(range(1, n))`. -/
def simple_branch_bound (sq : ℚ → ℚ) (elapsed : Nat → ℚ)
    (tsp_instance : TSPInstance) (time_limit : ℚ) : List Nat × WithTop ℚ :=
  let n := tsp_instance.dimension
  let nn := nearest_neighbor_tour sq tsp_instance 0
  if 15 < n then nn
  else
    let st := branch_bound_recursive sq tsp_instance elapsed time_limit (n + 1)
      [0] (List.range' 1 (n - 1)) 0 ⟨nn.1, nn.2, 0⟩
    (st.best_tour, st.best_cost)

/-- Python `solve_hybrid_algorithm`: dispatch on the dimension —
bounded search (with the default 10-second limit) up to 12 cities,
the cheaper of nearest-neighbour and farthest-insertion up to 100,
nearest-neighbour alone beyond. -/
def solve_hybrid_algorithm (sq : ℚ → ℚ) (elapsed : Nat → ℚ)
    (tsp_instance : TSPInstance) : List Nat × WithTop ℚ :=
  let n := tsp_instance.dimension
  if n ≤ 12 then simple_branch_bound sq elapsed tsp_instance 10
  else if n ≤ 100 then
    let nn := nearest_neighbor_tour sq tsp_instance 0
    let fi := farthest_insertion_tour sq tsp_instance 0
    if nn.2 ≤ fi.2 then nn else fi
  else nearest_neighbor_tour sq tsp_instance 0

/-- Python `solve_enhanced_algorithm` forwards to
`solve_hybrid_algorithm`. -/
def solve_enhanced_algorithm (sq : ℚ → ℚ) (elapsed : Nat → ℚ)
    (tsp_instance : TSPInstance) : List Nat × WithTop ℚ :=
  solve_hybrid_algorithm sq elapsed tsp_instance

/-- C5: the Hybrid Solver dispatches on the dimension: `n ≤ 12` runs
the bounded exact search (seeded inside `simple_branch_bound` with
the nearest-neighbour tour, at the default 10-second limit);
`12 < n ≤ 100` runs both constructions and returns the one of lower
cost; `n > 100` returns the nearest-neighbour tour only. -/
theorem hybrid_dispatch (sq : ℚ → ℚ) (elapsed : Nat → ℚ) (tsp_instance : TSPInstance) :
    (tsp_instance.dimension ≤ 12 →
      solve_hybrid_algorithm sq elapsed tsp_instance =
        simple_branch_bound sq elapsed tsp_instance 10) ∧
    (12 < tsp_instance.dimension → tsp_instance.dimension ≤ 100 →
      (solve_hybrid_algorithm sq elapsed tsp_instance =
          nearest_neighbor_tour sq tsp_instance 0 ∨
        solve_hybrid_algorithm sq elapsed tsp_instance =
          farthest_insertion_tour sq tsp_instance 0) ∧
      (solve_hybrid_algorithm sq elapsed tsp_instance).2 =
        min (nearest_neighbor_tour sq tsp_instance 0).2
          (farthest_insertion_tour sq tsp_instance 0).2) ∧
    (100 < tsp_instance.dimension →
      solve_hybrid_algorithm sq elapsed tsp_instance =
        nearest_neighbor_tour sq tsp_instance 0) := by
  refine ⟨fun h12 => ?_, fun h12 h100 => ?_, fun h100 => ?_⟩
  · simp [solve_hybrid_algorithm, h12]
  · have h12n : ¬ tsp_instance.dimension ≤ 12 := by omega
    by_cases hle : (nearest_neighbor_tour sq tsp_instance 0).2 ≤
        (farthest_insertion_tour sq tsp_instance 0).2
    · constructor
      · left
        simp [solve_hybrid_algorithm, h12n, h100, hle]
      · simp [solve_hybrid_algorithm, h12n, h100, hle, min_eq_left hle]
    · constructor
      · right
        simp [solve_hybrid_algorithm, h12n, h100, hle]
      · have hlt := lt_of_not_le hle
        simp [solve_hybrid_algorithm, h12n, h100, hle, min_eq_right (le_of_lt hlt)]
  · have h12n : ¬ tsp_instance.dimension ≤ 12 := by omega
    have h100n : ¬ tsp_instance.dimension ≤ 100 := by omega
    simp [solve_hybrid_algorithm, h12n, h100n]

/-- Witness for C5 at concrete instances in each dispatch band
(dimensions 3, 13 and 101). -/
theorem hybrid_dispatch_witness :
    (solve_hybrid_algorithm (fun q => q) (fun _ => 0) ⟨"a", [], [], 3, false⟩ =
      simple_branch_bound (fun q => q) (fun _ => 0) ⟨"a", [], [], 3, false⟩ 10) ∧
    ((solve_hybrid_algorithm (fun q => q) (fun _ => 0) ⟨"b", [], [], 13, false⟩ =
        nearest_neighbor_tour (fun q => q) ⟨"b", [], [], 13, false⟩ 0 ∨
      solve_hybrid_algorithm (fun q => q) (fun _ => 0) ⟨"b", [], [], 13, false⟩ =
        farthest_insertion_tour (fun q => q) ⟨"b", [], [], 13, false⟩ 0) ∧
      (solve_hybrid_algorithm (fun q => q) (fun _ => 0) ⟨"b", [], [], 13, false⟩).2 =
        min (nearest_neighbor_tour (fun q => q) ⟨"b", [], [], 13, false⟩ 0).2
          (farthest_insertion_tour (fun q => q) ⟨"b", [], [], 13, false⟩ 0).2) ∧
    (solve_hybrid_algorithm (fun q => q) (fun _ => 0) ⟨"c", [], [], 101, false⟩ =
      nearest_neighbor_tour (fun q => q) ⟨"c", [], [], 101, false⟩ 0) :=
  ⟨(hybrid_dispatch (fun q => q) (fun _ => 0) ⟨"a", [], [], 3, false⟩).1 (by norm_num),
    (hybrid_dispatch (fun q => q) (fun _ => 0) ⟨"b", [], [], 13, false⟩).2.1
      (by norm_num) (by norm_num),
    (hybrid_dispatch (fun q => q) (fun _ => 0) ⟨"c", [], [], 101, false⟩).2.2 (by norm_num)⟩

/-- C6: the bounded search checks its two hard cutoffs (the
wall-clock limit, 10 seconds by default at the hybrid call site, and
the 50,000-node budget) at every expanded node: whenever the check
fires, the call returns its context unchanged except for the node
counter; and if the clock is already over the limit at every check,
the whole bounded search returns exactly the nearest-neighbour
baseline.  Both facts hold for every input, so no error is ever
raised. -/
theorem branch_bound_cutoffs :
    (∀ (sq : ℚ → ℚ) (tsp_instance : TSPInstance) (elapsed : Nat → ℚ)
      (time_limit : ℚ) (fuel : Nat) (current_tour remaining : List Nat)
      (current_cost : ℚ) (st : BBState),
      (elapsed (st.nodes_checked + 1) > time_limit ∨ st.nodes_checked + 1 > 50000) →
      branch_bound_recursive sq tsp_instance elapsed time_limit (fuel + 1)
        current_tour remaining current_cost st =
        { st with nodes_checked := st.nodes_checked + 1 }) ∧
    (∀ (sq : ℚ → ℚ) (elapsed : Nat → ℚ) (tsp_instance : TSPInstance),
      (∀ k, elapsed k > 10) →
      simple_branch_bound sq elapsed tsp_instance 10 =
        nearest_neighbor_tour sq tsp_instance 0) := by
  have hstop : ∀ (sq : ℚ → ℚ) (tsp_instance : TSPInstance) (elapsed : Nat → ℚ)
      (time_limit : ℚ) (fuel : Nat) (current_tour remaining : List Nat)
      (current_cost : ℚ) (st : BBState),
      (elapsed (st.nodes_checked + 1) > time_limit ∨ st.nodes_checked + 1 > 50000) →
      branch_bound_recursive sq tsp_instance elapsed time_limit (fuel + 1)
        current_tour remaining current_cost st =
        { st with nodes_checked := st.nodes_checked + 1 } := by
    intro sq tsp_instance elapsed time_limit fuel current_tour remaining current_cost st h
    simp only [branch_bound_recursive]
    rw [if_pos h]
  refine ⟨hstop, fun sq elapsed tsp_instance h => ?_⟩
  unfold simple_branch_bound
  by_cases h15 : 15 < tsp_instance.dimension
  · simp [h15]
  · simp only [h15, if_false]
    rw [hstop sq tsp_instance elapsed 10 tsp_instance.dimension [0]
      (List.range' 1 (tsp_instance.dimension - 1)) 0
      ⟨(nearest_neighbor_tour sq tsp_instance 0).1,
        (nearest_neighbor_tour sq tsp_instance 0).2, 0⟩ (Or.inl (h 1))]

/-- Witness for C6: a node-budget cutoff at a concrete over-budget
state, and a concrete always-late clock forcing the bounded search to
return the nearest-neighbour baseline. -/
theorem branch_bound_cutoffs_witness :
    branch_bound_recursive (fun q => q) ⟨"w", [], [], 3, false⟩ (fun _ => 0) 10 1
      [0] [1, 2] 0 ⟨[0, 1, 2], ⊤, 50000⟩ = ⟨[0, 1, 2], ⊤, 50001⟩ ∧
    simple_branch_bound (fun q => q) (fun _ => 11) ⟨"w", [], [], 3, false⟩ 10 =
      nearest_neighbor_tour (fun q => q) ⟨"w", [], [], 3, false⟩ 0 :=
  ⟨branch_bound_cutoffs.1 (fun q => q) ⟨"w", [], [], 3, false⟩ (fun _ => 0) 10 0
      [0] [1, 2] 0 ⟨[0, 1, 2], ⊤, 50000⟩ (Or.inr (by norm_num)),
    branch_bound_cutoffs.2 (fun q => q) (fun _ => 11) ⟨"w", [], [], 3, false⟩
      (fun _ => by norm_num)⟩

/-- C4 (counterexample to the claim as stated): on the empty tour,
`calculate_tour_cost` returns the ordinary value `float('inf')` and
does not signal any error. -/
theorem calculate_tour_cost_empty_no_error :
    calculate_tour_cost (fun q => q) [] none none = .ok ⊤ ∧
    ∀ e, calculate_tour_cost (fun q => q) [] none none ≠ .error e := by
  refine ⟨rfl, fun e h => ?_⟩
  simp [calculate_tour_cost] at h

/-- C4 (amended): for the empty tour, `calculate_tour_cost` returns
positive infinity as an ordinary value — the infeasibility signal is
the `inf` sentinel, not a raised error — regardless of the other
arguments. -/
theorem calculate_tour_cost_empty_returns_inf (sq : ℚ → ℚ)
    (distance_matrix : Option (List (List ℚ))) (instance_ : Option TSPInstance) :
    calculate_tour_cost sq [] distance_matrix instance_ = .ok ⊤ := rfl

/-- Weight of an edge list under an instance's distances (the
"total weight of the spanning tree it built" of the specification's
2-approximation guarantee). -/
def tree_weight (sq : ℚ → ℚ) (tsp_instance : TSPInstance)
    (edges : List (Nat × Nat)) : ℚ :=
  (edges.map (fun e => mstDist sq tsp_instance e.1 e.2)).sum

/-- Decidable check that an instance's matrix satisfies the triangle
inequality on all index triples below its dimension. -/
def triangle_ok (tsp_instance : TSPInstance) : Bool :=
  (List.range tsp_instance.dimension).all (fun i =>
    (List.range tsp_instance.dimension).all (fun j =>
      (List.range tsp_instance.dimension).all (fun k =>
        decide (mat_get tsp_instance.distance_matrix i k ≤
          mat_get tsp_instance.distance_matrix i j +
          mat_get tsp_instance.distance_matrix j k))))

/-- Decidable check that an instance's matrix is symmetric with a
zero diagonal on all indices below its dimension. -/
def matrix_ok (tsp_instance : TSPInstance) : Bool :=
  (List.range tsp_instance.dimension).all (fun i =>
    (List.range tsp_instance.dimension).all (fun j =>
      decide (mat_get tsp_instance.distance_matrix i j =
        mat_get tsp_instance.distance_matrix j i) &&
      decide (mat_get tsp_instance.distance_matrix i i = 0)))

/-- Three collinear points (0,0), (3,0), (4,0) with their exact
Euclidean distance matrix: the instance refuting the optimality
claim C1. -/
def instC1 : TSPInstance :=
  ⟨"bug3", [(0, 0), (3, 0), (4, 0)], [[0, 3, 4], [3, 0, 1], [4, 1, 0]], 3, false⟩

/-- Three collinear points (0,0), (2000000,0), (4000000,0), all
pairwise distances at least the Prim sentinel `999999`: the instance
refuting the 2-approximation claim C2. -/
def instC2 : TSPInstance :=
  ⟨"far3", [(0, 0), (2000000, 0), (4000000, 0)],
    [[0, 2000000, 4000000], [2000000, 0, 2000000], [4000000, 2000000, 0]], 3, false⟩

theorem mulHalf_coe (q : ℚ) :
    mulHalf ((q : ℚ) : WithTop ℚ) = ((q * (1 / 2) : ℚ) : WithTop ℚ) := rfl

theorem mulHalf_ofNat (n : ℕ) [n.AtLeastTwo] :
    mulHalf (no_index (OfNat.ofNat n) : WithTop ℚ) =
      ((OfNat.ofNat n * (1 / 2) : ℚ) : WithTop ℚ) := by
  rw [← WithTop.coe_ofNat]
  rfl

theorem nn_instC1 :
    nearest_neighbor_tour (fun q => q) instC1 0 = ([0, 1, 2], ((8 : ℚ) : WithTop ℚ)) := by
  norm_num [nearest_neighbor_tour, instC1, nnLoop, min_by_key, get_distance, mat_get,
    calculate_tour_cost, tour_cost_value, evalSumDists, evalPairDist, tourEdgePairs,
    List.range_succ, Bind.bind, Except.bind, Except.map, List.filter, pure, Except.pure]
  rfl

theorem bb_instC1 :
    solve_hybrid_algorithm (fun q => q) (fun _ => 0) instC1 =
      ([0, 1, 2], ((4 : ℚ) : WithTop ℚ)) := by
  have hL : instC1.large_instance = false := rfl
  have hM : instC1.distance_matrix = [[0, 3, 4], [3, 0, 1], [4, 1, 0]] := rfl
  have hd : instC1.dimension = 3 := rfl
  norm_num [solve_hybrid_algorithm, simple_branch_bound, nn_instC1, branch_bound_recursive,
    bound_calculation, mulHalf_coe, mulHalf_ofNat, get_distance, hL, hM, hd, mat_get,
    List.range', List.range_succ, List.cons_ne_nil,
    min_by_key, WithTop.map_coe, min_def, le_top, top_le_iff, WithTop.coe_le_coe,
    WithTop.coe_lt_coe, WithTop.coe_eq_coe, ← WithTop.coe_add, List.erase,
    -WithTop.coe_ofNat]

set_option maxHeartbeats 1000000 in
theorem hk_instC1 :
    held_karp_simple instC1 = ([0, 2, 1], ((8 : ℚ) : WithTop ℚ)) := by
  have hM : instC1.distance_matrix = [[0, 3, 4], [3, 0, 1], [4, 1, 0]] := rfl
  have hd : instC1.dimension = 3 := rfl
  have hb7 : bitCount 7 = 3 := rfl
  have hb5 : bitCount 5 = 2 := rfl
  have hb3 : bitCount 3 = 2 := rfl
  have hx0 : (1 <<< 3 - 1 : Nat) = 7 := by decide
  have hx1 : (7 ^^^ 1 <<< 1 : Nat) = 5 := by decide
  have hx2 : (7 ^^^ 1 <<< 2 : Nat) = 3 := by decide
  have hx3 : (5 ^^^ 1 <<< 2 : Nat) = 1 := by decide
  have h31 : hkDP (mat_get [[0, 3, 4], [3, 0, 1], [4, 1, 0]]) 3 3 1 = some (3, 0) := by
    rw [hkDP.eq_def]
    norm_num +decide [mat_get]
  have h30 : hkDP (mat_get [[0, 3, 4], [3, 0, 1], [4, 1, 0]]) 3 3 0 = none := by
    rw [hkDP.eq_def]
    norm_num +decide [hb3]
  have h52 : hkDP (mat_get [[0, 3, 4], [3, 0, 1], [4, 1, 0]]) 3 5 2 = some (4, 0) := by
    rw [hkDP.eq_def]
    norm_num +decide [mat_get]
  have h50 : hkDP (mat_get [[0, 3, 4], [3, 0, 1], [4, 1, 0]]) 3 5 0 = none := by
    rw [hkDP.eq_def]
    norm_num +decide [hb5]
  have h10 : hkDP (mat_get [[0, 3, 4], [3, 0, 1], [4, 1, 0]]) 3 1 0 = none := by
    rw [hkDP.eq_def]
    norm_num +decide
  have h71 : hkDP (mat_get [[0, 3, 4], [3, 0, 1], [4, 1, 0]]) 3 7 1 = some (5, 2) := by
    rw [hkDP.eq_def]
    norm_num +decide [hb7, hx1, List.range_succ, List.filterMap_cons, List.filterMap_nil,
      h52, h50, minFold, mat_get]
  have h72 : hkDP (mat_get [[0, 3, 4], [3, 0, 1], [4, 1, 0]]) 3 7 2 = some (4, 1) := by
    rw [hkDP.eq_def]
    norm_num +decide [hb7, hx2, List.range_succ, List.filterMap_cons, List.filterMap_nil,
      h31, h30, minFold, mat_get]
  norm_num +decide [held_karp_simple, hd, hM, hkFinal, hkParent, hkPathAux, minFold,
    h71, h72, h52, h10, hx0, hx1, hx2, hx3, List.filterMap_cons, List.filterMap_nil,
    mat_get, List.range', List.range_succ, List.cons_ne_nil, calculate_tour_cost,
    tour_cost_value, evalSumDists, evalPairDist, tourEdgePairs, pure, Except.pure,
    Bind.bind, Except.bind, Except.map, WithTop.coe_eq_coe, -WithTop.coe_ofNat]

set_option maxHeartbeats 1000000 in
theorem prim_edges_instC1 :
    (primRun (fun q => q) instC1).tree_edges = [(0, 1), (1, 2)] := by
  have hL : instC1.large_instance = false := rfl
  have hM : instC1.distance_matrix = [[0, 3, 4], [3, 0, 1], [4, 1, 0]] := rfl
  have hd : instC1.dimension = 3 := rfl
  norm_num +decide [primRun, primStep, primSelect, mstDist, hL, hM, hd, mat_get,
    List.range_succ]

set_option maxHeartbeats 1000000 in
theorem build_tour_instC1 :
    build_tour_from_mst (fun q => q) [(0, 1), (1, 2)] 3 instC1 =
      ([0, 1, 2], ((8 : ℚ) : WithTop ℚ)) := by
  have hL : instC1.large_instance = false := rfl
  have hM : instC1.distance_matrix = [[0, 3, 4], [3, 0, 1], [4, 1, 0]] := rfl
  norm_num +decide [build_tour_from_mst, dfsLoop, adjTotal, hL, hM, mat_get,
    List.range_succ, List.cons_ne_nil, calculate_tour_cost, tour_cost_value,
    evalSumDists, evalPairDist, tourEdgePairs, pure, Except.pure, Bind.bind,
    Except.bind, Except.map, WithTop.coe_eq_coe, -WithTop.coe_ofNat]

set_option maxHeartbeats 1000000 in
theorem kruskal_sel_instC1 :
    kruskalSelect 3 (List.range 3) []
      ((kruskalEdges (fun q => q) instC1).mergeSort edgeTupleLe) = [(1, 2), (0, 1)] := by
  have hL : instC1.large_instance = false := rfl
  have hM : instC1.distance_matrix = [[0, 3, 4], [3, 0, 1], [4, 1, 0]] := rfl
  have hd : instC1.dimension = 3 := rfl
  norm_num +decide [kruskalEdges, edgeTupleLe, mstDist, hL, hM, hd, mat_get,
    List.range_succ, List.range', List.mergeSort, kruskalSelect, connect_nodes,
    find_root]

set_option maxHeartbeats 1000000 in
theorem build_tour_instC1k :
    build_tour_from_mst (fun q => q) [(1, 2), (0, 1)] 3 instC1 =
      ([0, 1, 2], ((8 : ℚ) : WithTop ℚ)) := by
  have hL : instC1.large_instance = false := rfl
  have hM : instC1.distance_matrix = [[0, 3, 4], [3, 0, 1], [4, 1, 0]] := rfl
  norm_num +decide [build_tour_from_mst, dfsLoop, adjTotal, hL, hM, mat_get,
    List.range_succ, List.cons_ne_nil, calculate_tour_cost, tour_cost_value,
    evalSumDists, evalPairDist, tourEdgePairs, pure, Except.pure, Bind.bind,
    Except.bind, Except.map, WithTop.coe_eq_coe, -WithTop.coe_ofNat]

set_option maxHeartbeats 1000000 in
theorem mst_instC1 :
    solve_mst_approx (fun q => q) instC1 = .ok ([0, 1, 2], ((8 : ℚ) : WithTop ℚ)) := by
  have hd : instC1.dimension = 3 := rfl
  have hprim : solve_mst_prim (fun q => q) instC1 =
      .ok ([0, 1, 2], ((8 : ℚ) : WithTop ℚ)) := by
    rw [solve_mst_prim, if_neg (by norm_num [hd]), hd, prim_edges_instC1, build_tour_instC1]
  have hkrus : solve_mst_kruskal (fun q => q) instC1 =
      .ok ([0, 1, 2], ((8 : ℚ) : WithTop ℚ)) := by
    rw [solve_mst_kruskal, if_neg (by norm_num [hd])]
    simp only [hd, kruskal_sel_instC1, build_tour_instC1k]
  rw [solve_mst_approx, if_pos (by norm_num [hd])]
  simp [hprim, hkrus, Bind.bind, Except.bind]

theorem validity_instC1 : triangle_ok instC1 = true ∧ matrix_ok instC1 = true := by
  constructor
  · norm_num [triangle_ok, instC1, mat_get, List.range_succ, decide_eq_true_eq]
  · norm_num [matrix_ok, instC1, mat_get, List.range_succ, decide_eq_true_eq]

set_option maxHeartbeats 1000000 in
theorem prim_edges_instC2 :
    (primRun (fun q => q) instC2).tree_edges = [] := by
  have hL : instC2.large_instance = false := rfl
  have hM : instC2.distance_matrix =
    [[0, 2000000, 4000000], [2000000, 0, 2000000], [4000000, 2000000, 0]] := rfl
  have hd : instC2.dimension = 3 := rfl
  norm_num +decide [primRun, primStep, primSelect, mstDist, hL, hM, hd, mat_get,
    List.range_succ]

set_option maxHeartbeats 1000000 in
theorem prim_instC2 :
    solve_mst_prim (fun q => q) instC2 = .ok ([0, 1, 2], ((8000000 : ℚ) : WithTop ℚ)) := by
  have hL : instC2.large_instance = false := rfl
  have hM : instC2.distance_matrix =
    [[0, 2000000, 4000000], [2000000, 0, 2000000], [4000000, 2000000, 0]] := rfl
  have hd : instC2.dimension = 3 := rfl
  rw [solve_mst_prim, if_neg (by norm_num [hd]), hd, prim_edges_instC2]
  norm_num +decide [build_tour_from_mst, dfsLoop, adjTotal, hL, hM, mat_get,
    List.range_succ, List.cons_ne_nil, calculate_tour_cost, tour_cost_value,
    evalSumDists, evalPairDist, tourEdgePairs, pure, Except.pure, Bind.bind,
    Except.bind, Except.map, WithTop.coe_eq_coe, -WithTop.coe_ofNat]

theorem validity_instC2 : triangle_ok instC2 = true ∧ matrix_ok instC2 = true := by
  constructor
  · norm_num [triangle_ok, instC2, mat_get, List.range_succ, decide_eq_true_eq]
  · norm_num [matrix_ok, instC2, mat_get, List.range_succ, decide_eq_true_eq]

/-- C1 (evidence for the code bug): on the valid 3-point instance
`instC1` (symmetric zero-diagonal matrix obeying the triangle
inequality), all three solvers produce results, yet the Exact
Solver's optimal cost 8 exceeds the cost 4 reported by the Hybrid
Solver: the bounded search records `current_cost`, which omits the
closing edge back to city 0, so the hybrid's reported cost
undercuts the true optimum (the genuine cyclic cost of its own tour
is 8). -/
theorem exact_vs_hybrid_optimality_bug :
    held_karp_simple instC1 = ([0, 2, 1], ((8 : ℚ) : WithTop ℚ)) ∧
    solve_mst_approx (fun q => q) instC1 = .ok ([0, 1, 2], ((8 : ℚ) : WithTop ℚ)) ∧
    solve_hybrid_algorithm (fun q => q) (fun _ => 0) instC1 =
      ([0, 1, 2], ((4 : ℚ) : WithTop ℚ)) ∧
    tour_cost_value (calculate_tour_cost (fun q => q) [0, 1, 2]
      (some instC1.distance_matrix) (some instC1)) = ((8 : ℚ) : WithTop ℚ) ∧
    matrix_ok instC1 = true ∧ triangle_ok instC1 = true ∧
    ¬ ((held_karp_simple instC1).2 ≤
      (solve_hybrid_algorithm (fun q => q) (fun _ => 0) instC1).2) := by
  have hcost : tour_cost_value (calculate_tour_cost (fun q => q) [0, 1, 2]
      (some instC1.distance_matrix) (some instC1)) = ((8 : ℚ) : WithTop ℚ) := by
    have hL : instC1.large_instance = false := rfl
    have hM : instC1.distance_matrix = [[0, 3, 4], [3, 0, 1], [4, 1, 0]] := rfl
    norm_num [calculate_tour_cost, tour_cost_value, evalSumDists, evalPairDist,
      tourEdgePairs, hL, hM, mat_get, List.range_succ, List.cons_ne_nil, pure,
      Except.pure, Bind.bind, Except.bind, Except.map, WithTop.coe_eq_coe,
      -WithTop.coe_ofNat]
  refine ⟨hk_instC1, mst_instC1, bb_instC1, hcost, validity_instC1.2, validity_instC1.1, ?_⟩
  rw [hk_instC1, bb_instC1]
  simp only [WithTop.coe_le_coe]
  norm_num

/-- C2 (evidence for the code bug): on the valid instance `instC2`
(triangle inequality satisfied, all pairwise distances at least the
sentinel `999999`), Prim's relaxation `distance < min_cost[...]`
never fires, so the construction attaches no tree edge at all: the
"spanning tree it built" is empty with weight 0, while the returned
tour costs 8000000 — the claimed bound `cost ≤ 2 × tree weight`
fails. -/
theorem mst_two_approx_bug :
    (primRun (fun q => q) instC2).tree_edges = [] ∧
    tree_weight (fun q => q) instC2 (primRun (fun q => q) instC2).tree_edges = 0 ∧
    solve_mst_prim (fun q => q) instC2 = .ok ([0, 1, 2], ((8000000 : ℚ) : WithTop ℚ)) ∧
    matrix_ok instC2 = true ∧ triangle_ok instC2 = true ∧
    ¬ ((8000000 : ℚ) ≤
      2 * tree_weight (fun q => q) instC2 (primRun (fun q => q) instC2).tree_edges) := by
  refine ⟨prim_edges_instC2, ?_, prim_instC2, validity_instC2.2, validity_instC2.1, ?_⟩
  · rw [prim_edges_instC2]
    rfl
  · rw [prim_edges_instC2]
    norm_num [tree_weight]

theorem mat_get_mat_set (m : List (List ℚ)) (i j a b : Nat) (v : ℚ)
    (hi : i < m.length) (hj : j < (m.getD i []).length) :
    mat_get (mat_set m i j v) a b = if a = i ∧ b = j then v else mat_get m a b := by
  simp only [mat_get, mat_set, List.getD_eq_getElem?_getD]
  rw [List.getElem?_set]
  by_cases ha : i = a
  · subst ha
    rw [if_pos rfl, if_pos hi, Option.getD_some, List.getElem?_set]
    by_cases hb : j = b
    · subst hb
      rw [if_pos rfl, if_pos (by simpa [List.getD_eq_getElem?_getD] using hj),
        Option.getD_some, if_pos ⟨rfl, rfl⟩]
    · rw [if_neg hb, if_neg (fun hc => hb hc.2.symm)]
  · rw [if_neg ha, if_neg (fun hc => ha hc.1.symm)]

theorem mat_set_length (m : List (List ℚ)) (i j : Nat) (v : ℚ) :
    (mat_set m i j v).length = m.length :=
  List.length_set m i ((m.getD i []).set j v)

theorem mat_set_row_length (m : List (List ℚ)) (i j r : Nat) (v : ℚ) :
    ((mat_set m i j v).getD r []).length = ((m.getD r []).length) := by
  simp only [mat_set, List.getD_eq_getElem?_getD]
  rw [List.getElem?_set]
  by_cases ha : i = r
  · subst ha
    by_cases hi : i < m.length
    · rw [if_pos rfl, if_pos hi, Option.getD_some, List.length_set]
    · rw [if_pos rfl, if_neg hi, Option.getD_none]
      have : m[i]? = none := by
        rw [List.getElem?_eq_none_iff]
        omega
      rw [this, Option.getD_none]
  · rw [if_neg ha]

/-- Shape and symmetry invariant of the distance-matrix fill loop. -/
def MatInv (n : Nat) (m : List (List ℚ)) : Prop :=
  m.length = n ∧ (∀ r, r < n → (m.getD r []).length = n) ∧
    ∀ a b, mat_get m a b = mat_get m b a

theorem matInv_step (n : Nat) (m : List (List ℚ)) (i j : Nat) (v : ℚ)
    (hm : MatInv n m) (hi : i < n) (hj : j < n) :
    MatInv n (mat_set (mat_set m i j v) j i v) := by
  obtain ⟨hlen, hrow, hsym⟩ := hm
  have hiL : i < m.length := by omega
  have hjL : j < (mat_set m i j v).length := by rw [mat_set_length]; omega
  have hrowi : j < (m.getD i []).length := by rw [hrow i hi]; omega
  have hrowj : i < ((mat_set m i j v).getD j []).length := by
    rw [mat_set_row_length, hrow j hj]
    omega
  refine ⟨by rw [mat_set_length, mat_set_length, hlen], ?_, ?_⟩
  · intro r hr
    rw [mat_set_row_length, mat_set_row_length]
    exact hrow r hr
  · intro a b
    rw [mat_get_mat_set _ _ _ _ _ _ hjL hrowj, mat_get_mat_set _ _ _ _ _ _ hjL hrowj,
      mat_get_mat_set _ _ _ _ _ _ hiL hrowi, mat_get_mat_set _ _ _ _ _ _ hiL hrowi]
    by_cases h1 : a = j ∧ b = i
    · rw [if_pos h1]
      by_cases h2 : b = j ∧ a = i
      · rw [if_pos h2]
      · rw [if_neg h2]
        by_cases h3 : b = i ∧ a = j
        · rw [if_pos h3]
        · exact absurd ⟨h1.2, h1.1⟩ h3
    · rw [if_neg h1]
      by_cases h2 : b = j ∧ a = i
      · rw [if_pos h2, if_pos ⟨h2.2, h2.1⟩]
      · rw [if_neg h2]
        have h3 : ¬ (a = i ∧ b = j) := fun hc => h2 ⟨hc.2, hc.1⟩
        have h4 : ¬ (b = i ∧ a = j) := fun hc => h1 ⟨hc.2, hc.1⟩
        rw [if_neg h3, if_neg h4]
        exact hsym a b

theorem upperPairs_mem (n : Nat) (p : Nat × Nat) (hp : p ∈ upperPairs n) :
    p.1 < n ∧ p.2 < n := by
  unfold upperPairs at hp
  simp only [List.mem_flatMap, List.mem_map, List.mem_range, List.mem_range'] at hp
  obtain ⟨i, hi, j, hj, rfl⟩ := hp
  omega

theorem calculate_distance_matrix_symm (sq : ℚ → ℚ) (coordinates : List (ℚ × ℚ))
    (edge_weight_type : String) (a b : Nat) :
    mat_get (calculate_distance_matrix sq coordinates edge_weight_type) a b =
      mat_get (calculate_distance_matrix sq coordinates edge_weight_type) b a := by
  set n := coordinates.length with hn
  have hinv : ∀ (l : List (Nat × Nat)) (m : List (List ℚ)),
      (∀ p ∈ l, p.1 < n ∧ p.2 < n) → MatInv n m →
      MatInv n (l.foldl (fun m ij =>
        let c1 := coordinates.getD ij.1 (0, 0)
        let c2 := coordinates.getD ij.2 (0, 0)
        let dist :=
          if edge_weight_type = "EUC_2D" then euclidean_distance sq c1 c2
          else if edge_weight_type = "MAN_2D" then manhattan_distance c1 c2
          else euclidean_distance sq c1 c2
        mat_set (mat_set m ij.1 ij.2 dist) ij.2 ij.1 dist) m) := by
    intro l
    induction l with
    | nil => exact fun m _ hm => hm
    | cons p rest ih =>
      intro m hl hm
      exact ih _ (fun q hq => hl q (List.mem_cons_of_mem _ hq))
        (matInv_step n m p.1 p.2 _ hm (hl p (List.mem_cons_self _ _)).1
          (hl p (List.mem_cons_self _ _)).2)
  have h0 : MatInv n (List.replicate n (List.replicate n (0 : ℚ))) := by
    refine ⟨List.length_replicate _ _, ?_, ?_⟩
    · intro r hr
      rw [List.getD_eq_getElem?_getD, List.getElem?_replicate]
      simp [hr, List.length_replicate]
    · intro x y
      unfold mat_get
      by_cases hx : x < n <;> by_cases hy : y < n <;>
        simp [List.getD_eq_getElem?_getD, List.getElem?_replicate, hx, hy]
  exact (hinv (upperPairs n) _ (fun p hp => upperPairs_mem n p hp) h0).2.2 a b

/-- C9: the Distance Oracle is symmetric.  For a valid instance —
its matrix computed by `calculate_distance_matrix` from its
coordinates, its dimension their count — `get_distance` is symmetric
at all indices below the dimension, both when the precomputed matrix
is consulted (`large_instance = false`) and when the distance is
recomputed on demand from coordinates (`large_instance = true`). -/
theorem distance_oracle_symmetric (sq : ℚ → ℚ) (name : String)
    (coordinates : List (ℚ × ℚ)) (edge_weight_type : String) (lrg : Bool) (i j : Nat)
    (hi : i < coordinates.length) (hj : j < coordinates.length) :
    TSPInstance.get_distance
      ⟨name, coordinates, calculate_distance_matrix sq coordinates edge_weight_type,
        coordinates.length, lrg⟩ sq i j =
    TSPInstance.get_distance
      ⟨name, coordinates, calculate_distance_matrix sq coordinates edge_weight_type,
        coordinates.length, lrg⟩ sq j i := by
  unfold TSPInstance.get_distance
  cases lrg with
  | false =>
    simpa using calculate_distance_matrix_symm sq coordinates edge_weight_type i j
  | true =>
    rw [if_pos rfl, if_pos rfl]
    unfold euclidean_distance
    congr 1
    ring

/-- Witness for C9 at two concrete points, in both oracle modes. -/
theorem distance_oracle_symmetric_witness :
    (TSPInstance.get_distance
      ⟨"w", [(0, 0), (3, 4)], calculate_distance_matrix (fun q => q) [(0, 0), (3, 4)] "EUC_2D",
        2, false⟩ (fun q => q) 0 1 =
     TSPInstance.get_distance
      ⟨"w", [(0, 0), (3, 4)], calculate_distance_matrix (fun q => q) [(0, 0), (3, 4)] "EUC_2D",
        2, false⟩ (fun q => q) 1 0) ∧
    (TSPInstance.get_distance
      ⟨"w", [(0, 0), (3, 4)], calculate_distance_matrix (fun q => q) [(0, 0), (3, 4)] "EUC_2D",
        2, true⟩ (fun q => q) 0 1 =
     TSPInstance.get_distance
      ⟨"w", [(0, 0), (3, 4)], calculate_distance_matrix (fun q => q) [(0, 0), (3, 4)] "EUC_2D",
        2, true⟩ (fun q => q) 1 0) :=
  ⟨distance_oracle_symmetric (fun q => q) "w" [(0, 0), (3, 4)] "EUC_2D" false 0 1
      (by norm_num) (by norm_num),
    distance_oracle_symmetric (fun q => q) "w" [(0, 0), (3, 4)] "EUC_2D" true 0 1
      (by norm_num) (by norm_num)⟩

theorem list_range_toFinset (n : Nat) : (List.range n).toFinset = Finset.range n := by
  ext a
  simp [List.mem_toFinset, List.mem_range, Finset.mem_range]

theorem is_valid_tour_of_perm (tour : List Nat) (n : Nat)
    (h : tour.Perm (List.range n)) : is_valid_tour tour n = true := by
  have hlen : tour.length = n := by
    rw [h.length_eq, List.length_range]
  have hfin : tour.toFinset = Finset.range n := by
    rw [List.toFinset_eq_of_perm _ _ h, list_range_toFinset]
  simp [is_valid_tour, hlen, hfin]

theorem nnLoop_perm (sq : ℚ → ℚ) (tsp_instance : TSPInstance)
    (unvisited : List Nat) (current : Nat) :
    (nnLoop sq tsp_instance unvisited current).Perm unvisited := by
  induction unvisited, current using nnLoop.induct sq tsp_instance with
  | case1 current => simp [nnLoop]
  | case2 u us current nearest hlen ih =>
    rw [nnLoop]
    exact ((ih.cons _).trans (List.perm_cons_erase (min_by_key_mem _ u us)).symm)
theorem zero_cons_filter_perm_range (n : Nat) (h : 1 ≤ n) :
    (0 :: (List.range n).filter (fun c => c ≠ 0)).Perm (List.range n) := by
  have hnodup1 : (0 :: (List.range n).filter (fun c => c ≠ 0)).Nodup := by
    refine List.Nodup.cons ?_ ((List.nodup_range _).filter _)
    intro hc
    have := List.of_mem_filter hc
    simp at this
  rw [List.perm_ext_iff_of_nodup hnodup1 (List.nodup_range _)]
  intro a
  simp only [List.mem_cons, List.mem_filter, List.mem_range]
  constructor
  · rintro (rfl | ⟨ha, _⟩)
    · omega
    · exact ha
  · intro ha
    by_cases h0 : a = 0
    · exact Or.inl h0
    · exact Or.inr ⟨ha, by simpa using h0⟩

theorem nearest_neighbor_tour_valid (sq : ℚ → ℚ) (tsp_instance : TSPInstance)
    (h : 1 ≤ tsp_instance.dimension) :
    is_valid_tour (nearest_neighbor_tour sq tsp_instance 0).1 tsp_instance.dimension = true := by
  apply is_valid_tour_of_perm
  show (0 :: nnLoop sq tsp_instance
    ((List.range tsp_instance.dimension).filter (fun c => c ≠ 0)) 0).Perm _
  exact ((nnLoop_perm sq tsp_instance _ 0).cons 0).trans
    (zero_cons_filter_perm_range _ h)

theorem fi_insert_pos_le (sq : ℚ → ℚ) (tsp_instance : TSPInstance)
    (tour : List Nat) (best_city : Nat) :
    fi_insert_pos sq tsp_instance tour best_city ≤ tour.length := by
  unfold fi_insert_pos
  have hgen : ∀ (l : List Nat), (∀ i ∈ l, i + 1 ≤ tour.length) →
      ∀ acc : Nat × WithTop ℚ, acc.1 ≤ tour.length →
      (l.foldl (fun acc i =>
        let j := (i + 1) % tour.length
        let increase : ℚ := get_distance sq tsp_instance (tour.getD i 0) best_city +
          get_distance sq tsp_instance best_city (tour.getD j 0) -
          get_distance sq tsp_instance (tour.getD i 0) (tour.getD j 0)
        if (increase : WithTop ℚ) < acc.2 then (i + 1, (increase : WithTop ℚ)) else acc)
        acc).1 ≤ tour.length := by
    intro l
    induction l with
    | nil => exact fun _ acc h1 => h1
    | cons x xs ih =>
      intro hl acc hacc
      simp only [List.foldl_cons]
      apply ih (fun i hi => hl i (List.mem_cons_of_mem _ hi))
      by_cases hlt : ((get_distance sq tsp_instance (tour.getD x 0) best_city +
          get_distance sq tsp_instance best_city (tour.getD ((x + 1) % tour.length) 0) -
          get_distance sq tsp_instance (tour.getD x 0)
            (tour.getD ((x + 1) % tour.length) 0) : ℚ) : WithTop ℚ) < acc.2
      · simp only [if_pos hlt]
        exact hl x (List.mem_cons_self _ _)
      · simp only [if_neg hlt]
        exact hacc
  apply hgen
  · intro i hi
    have := List.mem_range.mp hi
    omega
  · exact Nat.zero_le _

theorem fiLoop_perm (sq : ℚ → ℚ) (tsp_instance : TSPInstance)
    (tour unvisited : List Nat) :
    (fiLoop sq tsp_instance tour unvisited).Perm (tour ++ unvisited) := by
  induction tour, unvisited using fiLoop.induct sq tsp_instance with
  | case1 tour => simp [fiLoop]
  | case2 tour u us best_city best_pos hlen ih =>
    rw [fiLoop]
    have h1 : (tour.insertIdx best_pos best_city).Perm (best_city :: tour) :=
      List.perm_insertIdx _ _ (fi_insert_pos_le sq tsp_instance tour best_city)
    refine ih.trans ?_
    refine ((h1.append_right _).trans ?_)
    have h2 : (best_city :: tour ++ ((u :: us).erase best_city)).Perm
        (tour ++ (best_city :: (u :: us).erase best_city)) := List.perm_middle.symm
    refine h2.trans ?_
    exact List.Perm.append_left tour (List.perm_cons_erase (max_by_key_mem _ u us)).symm

theorem farthest_insertion_tour_valid (sq : ℚ → ℚ) (tsp_instance : TSPInstance)
    (h : 1 ≤ tsp_instance.dimension) :
    is_valid_tour (farthest_insertion_tour sq tsp_instance 0).1
      tsp_instance.dimension = true := by
  set n := tsp_instance.dimension with hn
  by_cases h2 : n ≤ 2
  · unfold farthest_insertion_tour
    rw [← hn, if_pos h2]
    exact nearest_neighbor_tour_valid sq tsp_instance h
  · unfold farthest_insertion_tour
    rw [← hn, if_neg h2]
    rcases hfil : (List.range n).filter (fun c => c ≠ 0) with _ | ⟨u, us⟩
    · exfalso
      have h1 : (1 : Nat) ∈ (List.range n).filter (fun c => c ≠ 0) := by
        rw [List.mem_filter]
        refine ⟨List.mem_range.mpr (by omega), by simp⟩
      rw [hfil] at h1
      simp at h1
    · rw [hfil]
      dsimp only
      apply is_valid_tour_of_perm
      have hperm := fiLoop_perm sq tsp_instance
        [0, max_by_key (fun city => get_distance sq tsp_instance 0 city) u us]
        ((u :: us).erase (max_by_key (fun city => get_distance sq tsp_instance 0 city) u us))
      refine hperm.trans ?_
      have hm : max_by_key (fun city => get_distance sq tsp_instance 0 city) u us ∈
          u :: us := max_by_key_mem _ u us
      have h3 : ([0, max_by_key (fun city => get_distance sq tsp_instance 0 city) u us] ++
          ((u :: us).erase (max_by_key (fun city => get_distance sq tsp_instance 0 city) u us))).Perm
          (0 :: u :: us) := by
        have := (List.perm_cons_erase hm).symm
        exact (this.cons 0)
      refine h3.trans ?_
      rw [← hfil]
      exact zero_cons_filter_perm_range n (by omega)

theorem branch_bound_recursive_valid (sq : ℚ → ℚ) (tsp_instance : TSPInstance)
    (elapsed : Nat → ℚ) (time_limit : ℚ) :
    ∀ (fuel : Nat) (current_tour remaining : List Nat) (current_cost : ℚ) (st : BBState),
      (current_tour ++ remaining).Perm (List.range tsp_instance.dimension) →
      is_valid_tour st.best_tour tsp_instance.dimension = true →
      is_valid_tour (branch_bound_recursive sq tsp_instance elapsed time_limit fuel
        current_tour remaining current_cost st).best_tour tsp_instance.dimension = true := by
  intro fuel
  induction fuel with
  | zero =>
    intro current_tour remaining current_cost st _ hvalid
    rw [branch_bound_recursive]
    exact hvalid
  | succ fuel ih =>
    intro current_tour remaining current_cost st hperm hvalid
    rw [branch_bound_recursive]
    dsimp only
    by_cases hcut : elapsed (st.nodes_checked + 1) > time_limit ∨
        st.nodes_checked + 1 > 50000
    · rw [if_pos hcut]
      exact hvalid
    · rw [if_neg hcut]
      by_cases hrem : remaining = []
      · rw [if_pos hrem]
        by_cases hlt : ((current_cost : ℚ) : WithTop ℚ) <
            ({ st with nodes_checked := st.nodes_checked + 1 } : BBState).best_cost
        · rw [if_pos hlt]
          apply is_valid_tour_of_perm
          have := hperm
          rw [hrem, List.append_nil] at this
          exact this
        · rw [if_neg hlt]
          exact hvalid
      · rw [if_neg hrem]
        by_cases hbd : ({ st with nodes_checked := st.nodes_checked + 1 } : BBState).best_cost ≤
            (current_cost : WithTop ℚ) + bound_calculation sq tsp_instance remaining
        · rw [if_pos hbd]
          exact hvalid
        · rw [if_neg hbd]
          have aux : ∀ (cands : List Nat) (s : BBState),
              (∀ c ∈ cands, c ∈ remaining) →
              is_valid_tour s.best_tour tsp_instance.dimension = true →
              is_valid_tour ((cands.foldl (fun s next_city =>
                let new_cost := current_cost +
                  get_distance sq tsp_instance ((current_tour.getLast?).getD 0) next_city
                if (new_cost : WithTop ℚ) < s.best_cost then
                  branch_bound_recursive sq tsp_instance elapsed time_limit fuel
                    (current_tour ++ [next_city]) (remaining.erase next_city) new_cost s
                else s) s).best_tour) tsp_instance.dimension = true := by
            intro cands
            induction cands with
            | nil => exact fun s _ hv => hv
            | cons c cs ihc =>
              intro s hc hv
              simp only [List.foldl_cons]
              refine ihc _ (fun x hx => hc x (List.mem_cons_of_mem _ hx)) ?_
              by_cases hlt : ((current_cost +
                  get_distance sq tsp_instance ((current_tour.getLast?).getD 0) c : ℚ) :
                  WithTop ℚ) < s.best_cost
              · simp only [if_pos hlt]
                apply ih
                · have hcm : c ∈ remaining := hc c (List.mem_cons_self _ _)
                  have h1 : (remaining.erase c).Perm (remaining.erase c) := List.Perm.refl _
                  have h2 : ((current_tour ++ [c]) ++ remaining.erase c) =
                      current_tour ++ (c :: remaining.erase c) := by
                    rw [List.append_assoc]
                    rfl
                  rw [h2]
                  refine List.Perm.trans ?_ hperm
                  exact List.Perm.append_left current_tour
                    (List.perm_cons_erase hcm).symm
                · exact hv
              · simp only [if_neg hlt]
                exact hv
          exact aux remaining _ (fun c hc => hc) hvalid

theorem simple_branch_bound_valid (sq : ℚ → ℚ) (elapsed : Nat → ℚ)
    (tsp_instance : TSPInstance) (time_limit : ℚ) (h : 1 ≤ tsp_instance.dimension) :
    is_valid_tour (simple_branch_bound sq elapsed tsp_instance time_limit).1
      tsp_instance.dimension = true := by
  unfold simple_branch_bound
  by_cases h15 : 15 < tsp_instance.dimension
  · rw [if_pos h15]
    exact nearest_neighbor_tour_valid sq tsp_instance h
  · rw [if_neg h15]
    dsimp only
    apply branch_bound_recursive_valid
    · have hn1 : tsp_instance.dimension - 1 + 1 = tsp_instance.dimension := by omega
      rw [List.singleton_append, List.range_eq_range', ← hn1, List.range'_succ]
      exact List.Perm.refl _
    · exact nearest_neighbor_tour_valid sq tsp_instance h

theorem solve_hybrid_algorithm_valid (sq : ℚ → ℚ) (elapsed : Nat → ℚ)
    (tsp_instance : TSPInstance) (h : 1 ≤ tsp_instance.dimension) :
    is_valid_tour (solve_hybrid_algorithm sq elapsed tsp_instance).1
      tsp_instance.dimension = true := by
  unfold solve_hybrid_algorithm
  by_cases h12 : tsp_instance.dimension ≤ 12
  · rw [if_pos h12]
    exact simple_branch_bound_valid sq elapsed tsp_instance 10 h
  · rw [if_neg h12]
    by_cases h100 : tsp_instance.dimension ≤ 100
    · rw [if_pos h100]
      dsimp only
      by_cases hle : (nearest_neighbor_tour sq tsp_instance 0).2 ≤
          (farthest_insertion_tour sq tsp_instance 0).2
      · rw [if_pos hle]
        exact nearest_neighbor_tour_valid sq tsp_instance h
      · rw [if_neg hle]
        exact farthest_insertion_tour_valid sq tsp_instance h
    · rw [if_neg h100]
      exact nearest_neighbor_tour_valid sq tsp_instance h

theorem list_getD_set {α : Type} (l : List α) (i a : Nat) (x d : α) :
    (l.set i x).getD a d = if i = a ∧ i < l.length then x else l.getD a d := by
  rw [List.getD_eq_getElem?_getD, List.getElem?_set]
  by_cases ha : i = a
  · subst ha
    by_cases hi : i < l.length
    · rw [if_pos rfl, if_pos hi, if_pos ⟨rfl, hi⟩, Option.getD_some]
    · rw [if_pos rfl, if_neg hi, if_neg (fun hc => hi hc.2), Option.getD_none,
        List.getD_eq_getElem?_getD, List.getElem?_eq_none_iff.mpr (by omega),
        Option.getD_none]
  · rw [if_neg ha, if_neg (fun hc => ha hc.1), List.getD_eq_getElem?_getD]

/-- Every adjacency list entry is a city index below `n`. -/
def AdjBound (n : Nat) (adj : List (List Nat)) : Prop :=
  ∀ i y, y ∈ adj.getD i [] → y < n

theorem adj_build_bound (n : Nat) (doubled : List (Nat × Nat))
    (hd : ∀ e ∈ doubled, e.2 < n) :
    AdjBound n (doubled.foldl
      (fun adj e => adj.set e.1 (adj.getD e.1 [] ++ [e.2]))
      (List.replicate n ([] : List Nat))) := by
  have hgen : ∀ (l : List (Nat × Nat)) (adj : List (List Nat)),
      (∀ e ∈ l, e.2 < n) → AdjBound n adj →
      AdjBound n (l.foldl (fun adj e => adj.set e.1 (adj.getD e.1 [] ++ [e.2])) adj) := by
    intro l
    induction l with
    | nil => exact fun adj _ h => h
    | cons e es ih =>
      intro adj hl hadj
      simp only [List.foldl_cons]
      refine ih _ (fun x hx => hl x (List.mem_cons_of_mem _ hx)) ?_
      intro i y hy
      rw [list_getD_set] at hy
      by_cases hc : e.1 = i ∧ e.1 < adj.length
      · rw [if_pos hc] at hy
        rcases List.mem_append.mp hy with h1 | h1
        · exact hadj e.1 y h1
        · have : y = e.2 := List.mem_singleton.mp h1
          exact this ▸ hl e (List.mem_cons_self _ _)
      · rw [if_neg hc] at hy
        exact hadj i y hy
  refine hgen doubled _ hd ?_
  intro i y hy
  rw [List.getD_eq_getElem?_getD, List.getElem?_replicate] at hy
  by_cases hi : i < n
  · rw [if_pos hi] at hy
    simp at hy
  · rw [if_neg hi] at hy
    simp at hy

theorem dfsLoop_bound (n : Nat) :
    ∀ (fuel : Nat) (adj : List (List Nat)) (stack out : List Nat),
      AdjBound n adj → (∀ x ∈ stack, x < n) → (∀ x ∈ out, x < n) →
      ∀ x ∈ dfsLoop adj stack out fuel, x < n := by
  intro fuel
  induction fuel with
  | zero =>
    intro adj stack out _ _ hout
    simp only [dfsLoop]
    exact hout
  | succ fuel ih =>
    intro adj stack out hadj hstack hout
    simp only [dfsLoop]
    match hst : stack with
    | [] => exact hout
    | cur :: rest =>
      dsimp only
      match hlast : (adj.getD cur []).getLast? with
      | some next_city =>
        refine ih _ _ _ ?_ ?_ hout
        · intro i y hy
          rw [list_getD_set] at hy
          by_cases hc : cur = i ∧ cur < adj.length
          · rw [if_pos hc] at hy
            exact hadj cur y (List.dropLast_subset _ hy)
          · rw [if_neg hc] at hy
            exact hadj i y hy
        · intro x hx
          rcases List.mem_cons.mp hx with rfl | hx2
          · exact hadj cur x (List.mem_of_getLast?_eq_some hlast)
          · exact hstack x hx2
      | none =>
        refine ih _ _ _ hadj (fun x hx => hstack x (List.mem_cons_of_mem _ hx)) ?_
        intro x hx
        rcases List.mem_append.mp hx with h1 | h1
        · exact hout x h1
        · exact hstack x (List.mem_singleton.mp h1 ▸ List.mem_cons_self _ _)

/-- Invariant of the first-occurrence deduplication fold of
`build_tour_from_mst`. -/
def DedupInv (n : Nat) (acc : List Nat × List Bool) : Prop :=
  acc.2.length = n ∧ acc.1.Nodup ∧
    (∀ c, acc.2.getD c false = true ↔ c ∈ acc.1) ∧ (∀ c ∈ acc.1, c < n)

theorem dedup_fold_inv (n : Nat) :
    ∀ (path : List Nat) (acc : List Nat × List Bool),
      (∀ x ∈ path, x < n) → DedupInv n acc →
      DedupInv n (path.foldl (fun (acc : List Nat × List Bool) c =>
        if acc.2.getD c false = true then acc
        else (acc.1 ++ [c], acc.2.set c true)) acc) := by
  intro path
  induction path with
  | nil => exact fun acc _ h => h
  | cons c cs ih =>
    intro acc hp hinv
    obtain ⟨hlen, hnodup, hiff, hbound⟩ := hinv
    simp only [List.foldl_cons]
    refine ih _ (fun x hx => hp x (List.mem_cons_of_mem _ hx)) ?_
    by_cases hv : acc.2.getD c false = true
    · rw [if_pos hv]
      exact ⟨hlen, hnodup, hiff, hbound⟩
    · rw [if_neg hv]
      have hcn : c < n := hp c (List.mem_cons_self _ _)
      refine ⟨by rw [List.length_set]; exact hlen, ?_, ?_, ?_⟩
      · simp only [List.nodup_append, List.nodup_cons]
        refine ⟨hnodup, by simp, ?_⟩
        intro x hx hx2
        have : x = c := by simpa using hx2
        subst this
        exact hv (hiff x |>.mpr hx)
      · intro x
        rw [list_getD_set]
        by_cases hc : c = x ∧ c < acc.2.length
        · rw [if_pos hc]
          simp [← hc.1]
        · rw [if_neg hc]
          have hne : x ≠ c := by
            intro rfl2
            exact hc ⟨rfl2.symm, by omega⟩
          rw [hiff x]
          simp [List.mem_append, hne]
      · intro x hx
        rcases List.mem_append.mp hx with h1 | h1
        · exact hbound x h1
        · exact (List.mem_singleton.mp h1) ▸ hcn

theorem build_tour_from_mst_valid (sq : ℚ → ℚ) (mst_edges : List (Nat × Nat))
    (n : Nat) (tsp_instance : TSPInstance) (hn : 0 < n)
    (hE : ∀ e ∈ mst_edges, e.1 < n ∧ e.2 < n) :
    is_valid_tour (build_tour_from_mst sq mst_edges n tsp_instance).1 n = true := by
  unfold build_tour_from_mst
  dsimp only
  set doubled := mst_edges.flatMap (fun e => [(e.1, e.2), (e.2, e.1)]) with hdoubled
  have hd : ∀ e ∈ doubled, e.2 < n := by
    intro e he
    rw [hdoubled, List.mem_flatMap] at he
    obtain ⟨a, ha, he2⟩ := he
    rcases List.mem_cons.mp he2 with rfl | he3
    · exact (hE a ha).2
    · rcases List.mem_cons.mp he3 with rfl | he4
      · exact (hE a ha).1
      · simp at he4
  set adj := doubled.foldl
    (fun adj e => adj.set e.1 (adj.getD e.1 [] ++ [e.2]))
    (List.replicate n ([] : List Nat)) with hadjdef
  have hadj : AdjBound n adj := adj_build_bound n doubled hd
  have htrav : ∀ x ∈ (dfsLoop adj [0] [] (2 * adjTotal adj + 1)).reverse, x < n := by
    intro x hx
    rw [List.mem_reverse] at hx
    refine dfsLoop_bound n _ _ _ _ hadj ?_ (by simp) x hx
    intro y hy
    have : y = 0 := by simpa using hy
    omega
  have hinv := dedup_fold_inv n _ ([], List.replicate n false) htrav
    ⟨by simp, by simp, by
      intro c
      rw [List.getD_eq_getElem?_getD, List.getElem?_replicate]
      by_cases h : c < n <;> simp [h], by simp⟩
  set r := (dfsLoop adj [0] [] (2 * adjTotal adj + 1)).reverse.foldl
    (fun (acc : List Nat × List Bool) c =>
      if acc.2.getD c false = true then acc
      else (acc.1 ++ [c], acc.2.set c true)) ([], List.replicate n false) with hr
  obtain ⟨hlen, hnodup, hiff, hbound⟩ := hinv
  apply is_valid_tour_of_perm
  have hnodup2 : (r.1 ++ (List.range n).filter
      (fun c => build_tour_from_mst.acc_unvisited r.2 c)).Nodup := by
    rw [List.nodup_append]
    refine ⟨hnodup, (List.nodup_range n).filter _, ?_⟩
    intro x hx hx2
    have h1 := List.of_mem_filter hx2
    have h2 : r.2.getD x false = false := by
      simpa [build_tour_from_mst.acc_unvisited] using h1
    rw [← hiff x] at hx
    rw [hx] at h2
    exact Bool.true_eq_false.mp h2
  rw [List.perm_ext_iff_of_nodup hnodup2 (List.nodup_range n)]
  intro a
  simp only [List.mem_append, List.mem_filter, List.mem_range]
  constructor
  · rintro (h1 | ⟨h1, _⟩)
    · exact hbound a h1
    · exact h1
  · intro ha
    by_cases hv : r.2.getD a false = true
    · exact Or.inl ((hiff a).mp hv)
    · refine Or.inr ⟨ha, ?_⟩
      simp only [build_tour_from_mst.acc_unvisited]
      simp only [Bool.not_eq_true] at hv
      rw [List.getD_eq_getElem?_getD] at hv
      simp [hv]

/-- Invariant of the Prim loop: parent entries are `-1` or a valid
city index, and recorded tree edges have both endpoints below the
dimension. -/
def PrimInv (n : Nat) (st : PrimState) : Prop :=
  (∀ k, st.parent_node.getD k (-1) = -1 ∨
    (0 ≤ st.parent_node.getD k (-1) ∧ (st.parent_node.getD k (-1)).toNat < n)) ∧
  ∀ e ∈ st.tree_edges, e.1 < n ∧ e.2 < n

theorem primSelect_lt (is_visited : List Bool) (min_cost : List ℚ) (n cm : Nat)
    (h : primSelect is_visited min_cost n = some cm) : cm < n := by
  unfold primSelect at h
  have hgen : ∀ (l : List Nat), (∀ i ∈ l, i < n) →
      ∀ acc : Option Nat, (∀ x, acc = some x → x < n) →
      ∀ x, l.foldl (fun current_min node =>
        if is_visited.getD node false = false then
          match current_min with
          | none => some node
          | some cm =>
            if min_cost.getD node 0 < min_cost.getD cm 0 then some node else current_min
        else current_min) acc = some x → x < n := by
    intro l
    induction l with
    | nil => exact fun _ acc hacc => hacc
    | cons a as ih =>
      intro hl acc hacc
      simp only [List.foldl_cons]
      refine ih (fun i hi => hl i (List.mem_cons_of_mem _ hi)) _ ?_
      intro x hx
      by_cases hva : is_visited.getD a false = false
      · rw [if_pos hva] at hx
        match acc with
        | none =>
          simp at hx
          exact hx ▸ hl a (List.mem_cons_self _ _)
        | some cm0 =>
          dsimp at hx
          by_cases hlt : min_cost.getD a 0 < min_cost.getD cm0 0
          · rw [if_pos hlt] at hx
            simp at hx
            exact hx ▸ hl a (List.mem_cons_self _ _)
          · rw [if_neg hlt] at hx
            exact hacc x hx
      · rw [if_neg hva] at hx
        exact hacc x hx
  exact hgen (List.range n) (fun i hi => List.mem_range.mp hi) none (by simp) cm h

theorem primStep_inv (sq : ℚ → ℚ) (tsp_instance : TSPInstance) (st : PrimState)
    (h : PrimInv tsp_instance.dimension st) :
    PrimInv tsp_instance.dimension (primStep sq tsp_instance st) := by
  obtain ⟨hpar, hedges⟩ := h
  unfold primStep
  dsimp only
  cases hsel : primSelect st.is_visited st.min_cost tsp_instance.dimension with
  | none => exact ⟨hpar, hedges⟩
  | some cm =>
    have hcm : cm < tsp_instance.dimension := primSelect_lt _ _ _ _ hsel
    dsimp only
    have hrelax : ∀ (l : List Nat) (mp : List ℚ × List Int),
        (∀ k, mp.2.getD k (-1) = -1 ∨
          (0 ≤ mp.2.getD k (-1) ∧ (mp.2.getD k (-1)).toNat < tsp_instance.dimension)) →
        ∀ k, ((l.foldl (fun (mp : List ℚ × List Int) neighbor =>
          if (st.is_visited.set cm true).getD neighbor false = false then
            if mstDist sq tsp_instance cm neighbor < mp.1.getD neighbor 0 then
              (mp.1.set neighbor (mstDist sq tsp_instance cm neighbor),
                mp.2.set neighbor (Int.ofNat cm))
            else mp
          else mp) mp).2.getD k (-1)) = -1 ∨
          (0 ≤ ((l.foldl (fun (mp : List ℚ × List Int) neighbor =>
          if (st.is_visited.set cm true).getD neighbor false = false then
            if mstDist sq tsp_instance cm neighbor < mp.1.getD neighbor 0 then
              (mp.1.set neighbor (mstDist sq tsp_instance cm neighbor),
                mp.2.set neighbor (Int.ofNat cm))
            else mp
          else mp) mp).2.getD k (-1)) ∧
          (((l.foldl (fun (mp : List ℚ × List Int) neighbor =>
          if (st.is_visited.set cm true).getD neighbor false = false then
            if mstDist sq tsp_instance cm neighbor < mp.1.getD neighbor 0 then
              (mp.1.set neighbor (mstDist sq tsp_instance cm neighbor),
                mp.2.set neighbor (Int.ofNat cm))
            else mp
          else mp) mp).2.getD k (-1))).toNat < tsp_instance.dimension) := by
      intro l
      induction l with
      | nil => exact fun mp hmp => hmp
      | cons a as ih =>
        intro mp hmp
        simp only [List.foldl_cons]
        apply ih
        intro k
        by_cases hva : (st.is_visited.set cm true).getD a false = false
        · rw [if_pos hva]
          by_cases hlt : mstDist sq tsp_instance cm a < mp.1.getD a 0
          · rw [if_pos hlt]
            dsimp only
            rw [list_getD_set]
            by_cases hc : a = k ∧ a < mp.2.length
            · rw [if_pos hc]
              right
              constructor
              · rw [Int.ofNat_eq_natCast]
                omega
              · rw [Int.ofNat_eq_natCast]
                simpa using hcm
            · rw [if_neg hc]
              exact hmp k
          · rw [if_neg hlt]
            exact hmp k
        · rw [if_neg hva]
          exact hmp k
    constructor
    · exact hrelax (List.range tsp_instance.dimension) _ hpar
    · intro e he
      by_cases hpc : st.parent_node.getD cm (-1) ≠ -1
      · rw [if_pos hpc] at he
        rcases List.mem_append.mp he with h1 | h1
        · exact hedges e h1
        · have he2 : e = ((st.parent_node.getD cm (-1)).toNat, cm) :=
            List.mem_singleton.mp h1
          subst he2
          rcases hpar cm with h2 | h2
          · exact absurd h2 hpc
          · exact ⟨h2.2, hcm⟩
      · rw [if_neg hpc] at he
        exact hedges e he

theorem primRun_edges_bound (sq : ℚ → ℚ) (tsp_instance : TSPInstance) :
    ∀ e ∈ (primRun sq tsp_instance).tree_edges,
      e.1 < tsp_instance.dimension ∧ e.2 < tsp_instance.dimension := by
  have hinit : PrimInv tsp_instance.dimension
      ⟨List.replicate tsp_instance.dimension false,
        (List.replicate tsp_instance.dimension (999999 : ℚ)).set 0 0,
        List.replicate tsp_instance.dimension (-1), []⟩ := by
    constructor
    · intro k
      left
      dsimp only
      rw [List.getD_eq_getElem?_getD, List.getElem?_replicate]
      by_cases hk : k < tsp_instance.dimension <;> simp [hk]
    · simp
  have hgen : ∀ (l : List Nat) (st : PrimState),
      PrimInv tsp_instance.dimension st →
      PrimInv tsp_instance.dimension
        (l.foldl (fun st _ => primStep sq tsp_instance st) st) := by
    intro l
    induction l with
    | nil => exact fun st h => h
    | cons a as ih =>
      intro st h
      simp only [List.foldl_cons]
      exact ih _ (primStep_inv sq tsp_instance st h)
  exact (hgen (List.range tsp_instance.dimension) _ hinit).2

theorem kruskalEdges_bound (sq : ℚ → ℚ) (tsp_instance : TSPInstance) :
    ∀ t ∈ kruskalEdges sq tsp_instance,
      t.2.1 < tsp_instance.dimension ∧ t.2.2 < tsp_instance.dimension := by
  intro t ht
  unfold kruskalEdges at ht
  simp only [List.mem_flatMap, List.mem_map, List.mem_range, List.mem_range'] at ht
  obtain ⟨c1, hc1, c2, hc2, rfl⟩ := ht
  dsimp only
  omega

theorem kruskalSelect_bound (n : Nat) :
    ∀ (edges : List (ℚ × Nat × Nat)) (node_parent : List Nat)
      (selected : List (Nat × Nat)),
      (∀ e ∈ selected, e.1 < n ∧ e.2 < n) →
      (∀ t ∈ edges, t.2.1 < n ∧ t.2.2 < n) →
      ∀ e ∈ kruskalSelect n node_parent selected edges, e.1 < n ∧ e.2 < n := by
  intro edges
  induction edges with
  | nil =>
    intro np sel hsel _ e he
    rw [kruskalSelect] at he
    exact hsel e he
  | cons t ts ih =>
    intro np sel hsel hed e he
    obtain ⟨w, node1, node2⟩ := t
    rw [kruskalSelect] at he
    dsimp only at he
    set c := connect_nodes np node1 node2 with hc
    by_cases hcon : c.1
    · rw [if_pos hcon] at he
      have hsel1 : ∀ x ∈ sel ++ [(node1, node2)], x.1 < n ∧ x.2 < n := by
        intro x hx
        rcases List.mem_append.mp hx with h1 | h1
        · exact hsel x h1
        · have : x = (node1, node2) := List.mem_singleton.mp h1
          subst this
          exact hed (w, node1, node2) (List.mem_cons_self _ _)
      by_cases hdone : (sel ++ [(node1, node2)]).length = n - 1
      · rw [if_pos hdone] at he
        exact hsel1 e he
      · rw [if_neg hdone] at he
        exact ih _ _ hsel1 (fun x hx => hed x (List.mem_cons_of_mem _ hx)) e he
    · rw [if_neg hcon] at he
      exact ih _ _ hsel (fun x hx => hed x (List.mem_cons_of_mem _ hx)) e he

theorem solve_mst_prim_valid (sq : ℚ → ℚ) (tsp_instance : TSPInstance)
    (r : List Nat × WithTop ℚ) (h : solve_mst_prim sq tsp_instance = .ok r) :
    is_valid_tour r.1 tsp_instance.dimension = true := by
  unfold solve_mst_prim at h
  by_cases h3 : tsp_instance.dimension < 3
  · rw [if_pos h3] at h
    exact absurd h (by simp)
  · rw [if_neg h3] at h
    have hr : r = build_tour_from_mst sq (primRun sq tsp_instance).tree_edges
        tsp_instance.dimension tsp_instance := by
      injection h with heq
      exact heq.symm
    rw [hr]
    exact build_tour_from_mst_valid sq _ _ _ (by omega)
      (primRun_edges_bound sq tsp_instance)

theorem solve_mst_kruskal_valid (sq : ℚ → ℚ) (tsp_instance : TSPInstance)
    (r : List Nat × WithTop ℚ) (h : solve_mst_kruskal sq tsp_instance = .ok r) :
    is_valid_tour r.1 tsp_instance.dimension = true := by
  unfold solve_mst_kruskal at h
  by_cases h3 : tsp_instance.dimension < 3
  · rw [if_pos h3] at h
    exact absurd h (by simp)
  · rw [if_neg h3] at h
    dsimp only at h
    have hr : r = build_tour_from_mst sq
        (kruskalSelect tsp_instance.dimension (List.range tsp_instance.dimension) []
          ((kruskalEdges sq tsp_instance).mergeSort edgeTupleLe))
        tsp_instance.dimension tsp_instance := by
      injection h with heq
      exact heq.symm
    rw [hr]
    refine build_tour_from_mst_valid sq _ _ _ (by omega) ?_
    refine kruskalSelect_bound _ _ _ _ (by simp) ?_
    intro t ht
    have hmem : t ∈ kruskalEdges sq tsp_instance :=
      (List.mergeSort_perm (kruskalEdges sq tsp_instance) edgeTupleLe).mem_iff.mp ht
    exact kruskalEdges_bound sq tsp_instance t hmem

theorem solve_mst_approx_valid (sq : ℚ → ℚ) (tsp_instance : TSPInstance)
    (r : List Nat × WithTop ℚ) (h : solve_mst_approx sq tsp_instance = .ok r) :
    is_valid_tour r.1 tsp_instance.dimension = true := by
  unfold solve_mst_approx at h
  by_cases h500 : tsp_instance.dimension < 500
  · rw [if_pos h500] at h
    rcases hp : solve_mst_prim sq tsp_instance with ep | p
    · rw [hp] at h
      simp [Bind.bind, Except.bind] at h
    · rw [hp] at h
      rcases hk : solve_mst_kruskal sq tsp_instance with ek | k
      · rw [hk] at h
        simp [Bind.bind, Except.bind] at h
      · rw [hk] at h
        simp only [Bind.bind, Except.bind] at h
        by_cases hle : p.2 ≤ k.2
        · rw [if_pos hle] at h
          have : p = r := by injection h
          exact this ▸ solve_mst_prim_valid sq tsp_instance p hp
        · rw [if_neg hle] at h
          have : k = r := by injection h
          exact this ▸ solve_mst_kruskal_valid sq tsp_instance k hk
  · rw [if_neg h500] at h
    exact solve_mst_prim_valid sq tsp_instance r h

theorem minFold_mem_aux :
    ∀ (l : List (ℚ × Nat)) (acc : Option (ℚ × Nat)) (y : ℚ × Nat),
      l.foldl (fun acc cp =>
        match acc with
        | none => some cp
        | some best => if cp.1 < best.1 then some cp else some best) acc = some y →
      y ∈ l ∨ acc = some y := by
  intro l
  induction l with
  | nil => exact fun acc y hy => Or.inr hy
  | cons a as ih =>
    intro acc y hy
    simp only [List.foldl_cons] at hy
    rcases ih _ y hy with h1 | h1
    · exact Or.inl (List.mem_cons_of_mem _ h1)
    · match acc with
      | none =>
        simp only at h1
        have : a = y := by simpa using h1
        exact Or.inl (this ▸ List.mem_cons_self _ _)
      | some best =>
        simp only at h1
        by_cases hlt : a.1 < best.1
        · rw [if_pos hlt] at h1
          have : a = y := by simpa using h1
          exact Or.inl (this ▸ List.mem_cons_self _ _)
        · rw [if_neg hlt] at h1
          have : best = y := by simpa using h1
          exact Or.inr (by rw [this])

theorem minFold_mem (l : List (ℚ × Nat)) (x : ℚ × Nat) (h : minFold l = some x) :
    x ∈ l := by
  unfold minFold at h
  rcases minFold_mem_aux l none x h with h1 | h1
  · exact h1
  · simp at h1

theorem hkDP_zero_last (d : Nat → Nat → ℚ) (n mask : Nat) :
    hkDP d n mask 0 = none := by
  rw [hkDP.eq_def]
  rw [if_neg (by omega), dif_neg (by omega)]

/-- Structure of a filled Held–Karp entry: the mask holds bits `0`
and `last`, `1 ≤ last < n`, and the entry is either a two-point base
case with parent `0` or descends to a filled entry of the submask. -/
theorem hkDP_inv (d : Nat → Nat → ℚ) (n mask last : Nat) (cp : ℚ × Nat)
    (h : hkDP d n mask last = some cp) :
    Nat.testBit mask 0 = true ∧ Nat.testBit mask last = true ∧ 1 ≤ last ∧ last < n ∧
      ((mask = 1 ||| (1 <<< last) ∧ cp.2 = 0) ∨
        ∃ cp2, hkDP d n (mask ^^^ (1 <<< last)) cp.2 = some cp2) := by
  rw [hkDP.eq_def] at h
  by_cases hbase : 1 ≤ last ∧ last < n ∧ mask = 1 ||| (1 <<< last)
  · rw [if_pos hbase] at h
    obtain ⟨h1, h2, h3⟩ := hbase
    have hcp : cp = (d 0 last, 0) := by
      injection h with h4
      exact h4.symm
    refine ⟨?_, ?_, h1, h2, Or.inl ⟨h3, by rw [hcp]⟩⟩
    · subst h3
      rw [Nat.testBit_or]
      have : Nat.testBit 1 0 = true := rfl
      rw [this]
      simp
    · subst h3
      rw [Nat.testBit_or, Nat.shiftLeft_eq, one_mul, Nat.testBit_two_pow]
      simp
  · rw [if_neg hbase] at h
    by_cases hc : mask < 2 ^ n ∧ Nat.testBit mask 0 = true ∧ Nat.testBit mask last = true ∧
        1 ≤ last ∧ last < n ∧ 3 ≤ bitCount mask
    · rw [dif_pos hc] at h
      obtain ⟨cand, hmem, hfn⟩ := List.mem_filterMap.mp (minFold_mem _ _ h)
      by_cases hskip : cand = last ∨
          Nat.testBit (mask ^^^ (1 <<< last)) cand = false
      · rw [if_pos hskip] at hfn
        exact absurd hfn (by simp)
      · rw [if_neg hskip] at hfn
        rcases hdp : hkDP d n (mask ^^^ (1 <<< last)) cand with _ | cp0
        · rw [hdp] at hfn
          exact absurd hfn (by simp)
        · rw [hdp] at hfn
          simp only [Option.map_some'] at hfn
          injection hfn with h5
          have hcp2 : cp.2 = cand := by
            rw [← h5]
          refine ⟨hc.2.1, hc.2.2.1, hc.2.2.2.1, hc.2.2.2.2.1, Or.inr ⟨cp0, ?_⟩⟩
          rw [hcp2]
          exact hdp
    · rw [dif_neg hc] at h
      exact absurd h (by simp)

/-- The set of bit positions below `n` that are set in `mask` (the
cities of the DP subset). -/
def bitsF (n mask : Nat) : Finset Nat :=
  (Finset.range n).filter (fun i => Nat.testBit mask i = true)

theorem mem_bitsF (n mask i : Nat) :
    i ∈ bitsF n mask ↔ i < n ∧ Nat.testBit mask i = true := by
  unfold bitsF
  simp [Finset.mem_filter, Finset.mem_range]

theorem testBit_one_or_shift (last i : Nat) :
    Nat.testBit (1 ||| (1 <<< last)) i = (decide (i = 0) || decide (i = last)) := by
  rw [Nat.testBit_or, Nat.shiftLeft_eq, one_mul, Nat.testBit_two_pow]
  have h1 : Nat.testBit 1 i = decide (0 = i) := by
    rw [← pow_zero 2, Nat.testBit_two_pow]
  rw [h1]
  by_cases h0 : i = 0 <;> by_cases hl : last = i <;> simp [h0, hl] <;> omega

theorem bitsF_base (n last : Nat) (h1 : 1 ≤ last) (h2 : last < n) :
    bitsF n (1 ||| (1 <<< last)) = {0, last} := by
  ext i
  rw [mem_bitsF, testBit_one_or_shift]
  simp only [Finset.mem_insert, Finset.mem_singleton]
  constructor
  · rintro ⟨hin, hbit⟩
    rcases Bool.or_eq_true_iff.mp hbit with hb | hb
    · exact Or.inl (by simpa using hb)
    · exact Or.inr (by simpa using hb)
  · rintro (rfl | rfl)
    · exact ⟨by omega, by simp⟩
    · exact ⟨h2, by simp⟩

theorem bitsF_xor (n mask curr : Nat) (h : Nat.testBit mask curr = true) :
    bitsF n (mask ^^^ (1 <<< curr)) = (bitsF n mask).erase curr := by
  ext i
  rw [mem_bitsF, Finset.mem_erase, mem_bitsF]
  rw [Nat.testBit_xor, Nat.shiftLeft_eq, one_mul, Nat.testBit_two_pow]
  by_cases hc : curr = i
  · subst hc
    rw [h]
    simp
  · have hcd : decide (curr = i) = false := by simp [hc]
    rw [hcd, Bool.xor_false]
    constructor
    · rintro ⟨hin, hbit⟩
      exact ⟨fun he => hc he.symm, hin, hbit⟩
    · rintro ⟨_, hin, hbit⟩
      exact ⟨hin, hbit⟩

theorem base_xor_eq_one (last : Nat) (h1 : 1 ≤ last) :
    (1 ||| (1 <<< last)) ^^^ (1 <<< last) = 1 := by
  apply Nat.eq_of_testBit_eq
  intro i
  rw [Nat.testBit_xor, testBit_one_or_shift, Nat.shiftLeft_eq, one_mul,
    Nat.testBit_two_pow]
  have h2 : Nat.testBit 1 i = decide (0 = i) := by
    rw [← pow_zero 2, Nat.testBit_two_pow]
  rw [h2]
  by_cases h0 : i = 0
  · subst h0
    simp
    omega
  · by_cases hl : last = i <;> simp [h0, hl] <;> omega

theorem bitsF_full (n : Nat) : bitsF n ((1 <<< n) - 1) = Finset.range n := by
  ext i
  rw [mem_bitsF, Finset.mem_range]
  rw [Nat.shiftLeft_eq, one_mul, Nat.testBit_two_pow_sub_one]
  simp

/-- The reconstruction loop of `held_karp_simple`, started at a
filled DP key with enough fuel, lists each city of the mask exactly
once, ending at the anchor `0`. -/
theorem hkPath_spec (d : Nat → Nat → ℚ) (n : Nat) :
    ∀ (fuel mask curr : Nat) (cp : ℚ × Nat),
      hkDP d n mask curr = some cp → (bitsF n mask).card < fuel →
      (hkPathAux (hkParent d n) fuel mask curr).Nodup ∧
      (hkPathAux (hkParent d n) fuel mask curr).toFinset = bitsF n mask ∧
      (hkPathAux (hkParent d n) fuel mask curr).getLast? = some 0 := by
  intro fuel
  induction fuel with
  | zero =>
    intro mask curr cp _ hcard
    omega
  | succ fuel ih =>
    intro mask curr cp hdp hcard
    obtain ⟨hbit0, hbitc, hc1, hcn, hrest⟩ := hkDP_inv d n mask curr cp hdp
    have hmask0 : mask ≠ 0 := by
      intro h0
      rw [h0] at hbit0
      simp [Nat.zero_testBit] at hbit0
    have hparent : hkParent d n mask curr = some cp.2 := by
      unfold hkParent
      rw [hdp]
      rfl
    have hcurr_mem : curr ∈ bitsF n mask := (mem_bitsF n mask curr).mpr ⟨hcn, hbitc⟩
    have hzero_mem : (0 : Nat) ∈ bitsF n mask :=
      (mem_bitsF n mask 0).mpr ⟨by omega, hbit0⟩
    rcases hrest with ⟨hbase, hp0⟩ | ⟨cp2, hdp2⟩
    · -- two-point base case: the path is [curr, 0]
      have hx : mask ^^^ (1 <<< curr) = 1 := by
        rw [hbase]
        exact base_xor_eq_one curr hc1
      have hcard2 : (bitsF n mask).card = 2 := by
        rw [hbase, bitsF_base n curr hc1 hcn]
        rw [Finset.card_insert_of_not_mem (by simp; omega), Finset.card_singleton]
      have hfuel2 : 1 ≤ fuel := by omega
      obtain ⟨fuel2, rfl⟩ : ∃ f2, fuel = f2 + 1 := ⟨fuel - 1, by omega⟩
      have hav : hkPathAux (hkParent d n) (fuel2 + 1 + 1) mask curr = [curr, 0] := by
        simp only [hkPathAux]
        rw [if_neg hmask0, hparent, hp0, hx]
        simp only [hkPathAux]
        rw [if_neg (by omega)]
        have hnone : hkParent d n 1 0 = none := by
          unfold hkParent
          rw [hkDP_zero_last]
          rfl
        rw [hnone]
      rw [hav]
      refine ⟨by simp; omega, ?_, by rfl⟩
      rw [hbase, bitsF_base n curr hc1 hcn]
      ext i
      simp [List.mem_toFinset]
      tauto
    · -- inductive case: descend to the submask
      have hxbits : bitsF n (mask ^^^ (1 <<< curr)) = (bitsF n mask).erase curr :=
        bitsF_xor n mask curr hbitc
      have hcard2 : (bitsF n (mask ^^^ (1 <<< curr))).card = (bitsF n mask).card - 1 := by
        rw [hxbits, Finset.card_erase_of_mem hcurr_mem]
      have hcard3 : (bitsF n (mask ^^^ (1 <<< curr))).card < fuel := by
        have hpos : 0 < (bitsF n mask).card := Finset.card_pos.mpr ⟨curr, hcurr_mem⟩
        omega
      obtain ⟨hnodup, hfin, hlast⟩ := ih (mask ^^^ (1 <<< curr)) cp.2 cp2 hdp2 hcard3
      have hav : hkPathAux (hkParent d n) (fuel + 1) mask curr =
          curr :: hkPathAux (hkParent d n) fuel (mask ^^^ (1 <<< curr)) cp.2 := by
        simp only [hkPathAux]
        rw [if_neg hmask0, hparent]
      rw [hav]
      have hcurr_not : curr ∉ hkPathAux (hkParent d n) fuel (mask ^^^ (1 <<< curr)) cp.2 := by
        intro hmem
        have : curr ∈ (bitsF n mask).erase curr := by
          rw [← hxbits, ← hfin]
          exact List.mem_toFinset.mpr hmem
        simp at this
      have hne : hkPathAux (hkParent d n) fuel (mask ^^^ (1 <<< curr)) cp.2 ≠ [] := by
        intro h0
        have h0mem : (0 : Nat) ∈ bitsF n (mask ^^^ (1 <<< curr)) := by
          rw [hxbits, Finset.mem_erase]
          exact ⟨by omega, hzero_mem⟩
        rw [← hfin, h0] at h0mem
        simp at h0mem
      refine ⟨List.Nodup.cons hcurr_not hnodup, ?_, ?_⟩
      · rw [List.toFinset_cons, hfin, hxbits, Finset.insert_erase hcurr_mem]
      · rcases hl : hkPathAux (hkParent d n) fuel (mask ^^^ (1 <<< curr)) cp.2 with _ | ⟨a, as⟩
        · exact absurd hl hne
        · rw [List.getLast?_cons_cons]
          rw [← hl, hlast]

theorem hkFinal_some (d : Nat → Nat → ℚ) (n : Nat) (cl : ℚ × Nat)
    (h : hkFinal d n = some cl) :
    ∃ cp, hkDP d n ((1 <<< n) - 1) cl.2 = some cp := by
  unfold hkFinal at h
  obtain ⟨i, _, hfn⟩ := List.mem_filterMap.mp (minFold_mem _ _ h)
  rcases hdp : hkDP d n ((1 <<< n) - 1) i with _ | cp0
  · rw [hdp] at hfn
    exact absurd hfn (by simp)
  · rw [hdp] at hfn
    simp only [Option.map_some'] at hfn
    injection hfn with h5
    have : cl.2 = i := by rw [← h5]
    rw [this]
    exact ⟨cp0, hdp⟩

theorem held_karp_simple_valid (tsp_data : TSPInstance)
    (h : (held_karp_simple tsp_data).1 ≠ []) :
    is_valid_tour (held_karp_simple tsp_data).1 tsp_data.dimension = true := by
  unfold held_karp_simple at *
  by_cases h20 : 20 < tsp_data.dimension
  · rw [if_pos h20] at h
    exact absurd rfl h
  · rw [if_neg h20] at h ⊢
    rcases hfin : hkFinal (mat_get tsp_data.distance_matrix) tsp_data.dimension
      with _ | cl
    · rw [hfin] at h
      exact absurd rfl h
    · rw [hfin] at h
      dsimp only at h ⊢
      obtain ⟨cp, hdp⟩ := hkFinal_some _ _ _ hfin
      have hcard : (bitsF tsp_data.dimension ((1 <<< tsp_data.dimension) - 1)).card <
          tsp_data.dimension + 1 := by
        rw [bitsF_full, Finset.card_range]
        omega
      obtain ⟨hnodup, hfinset, hlast⟩ := hkPath_spec
        (mat_get tsp_data.distance_matrix) tsp_data.dimension
        (tsp_data.dimension + 1) ((1 <<< tsp_data.dimension) - 1) cl.2 cp hdp hcard
      rw [bitsF_full] at hfinset
      set path0 := hkPathAux
        (hkParent (mat_get tsp_data.distance_matrix) tsp_data.dimension)
        (tsp_data.dimension + 1) ((1 <<< tsp_data.dimension) - 1) cl.2 with hp0
      have hne : ¬ (path0 = [] ∨ path0.getLast? ≠ some 0) := by
        push_neg
        refine ⟨?_, hlast⟩
        intro h0
        rw [h0] at hlast
        simp at hlast
      rw [if_neg hne]
      have hlen : path0.length = tsp_data.dimension := by
        rw [← List.toFinset_card_of_nodup hnodup, hfinset, Finset.card_range]
      simp only [is_valid_tour]
      rw [List.length_reverse, List.toFinset_reverse, hlen, hfinset]
      simp

/-- C3: every non-sentinel tour returned by a solver is a permutation of
the point indices. Whenever the Exact Solver (`held_karp_simple`) returns
a non-empty tour, whenever the MST Solver (`solve_mst_approx`) returns a
result at all, and whenever the Hybrid Solver (`solve_hybrid_algorithm`)
runs on an instance with at least one point, the returned tour has
exactly `dimension` elements and contains every index in
`[0, dimension)` exactly once (`is_valid_tour` holds). -/
theorem solvers_return_valid_tours :
    (∀ tsp_data : TSPInstance, (held_karp_simple tsp_data).1 ≠ [] →
      is_valid_tour (held_karp_simple tsp_data).1 tsp_data.dimension = true) ∧
    (∀ (sq : ℚ → ℚ) (tsp_instance : TSPInstance) (r : List Nat × WithTop ℚ),
      solve_mst_approx sq tsp_instance = .ok r →
      is_valid_tour r.1 tsp_instance.dimension = true) ∧
    (∀ (sq : ℚ → ℚ) (elapsed : Nat → ℚ) (tsp_instance : TSPInstance),
      1 ≤ tsp_instance.dimension →
      is_valid_tour (solve_hybrid_algorithm sq elapsed tsp_instance).1
        tsp_instance.dimension = true) :=
  ⟨held_karp_simple_valid, solve_mst_approx_valid, solve_hybrid_algorithm_valid⟩

theorem solvers_return_valid_tours_witness :
    is_valid_tour (held_karp_simple instC1).1 instC1.dimension = true ∧
    is_valid_tour (([0, 1, 2], ((8 : ℚ) : WithTop ℚ)) :
      List Nat × WithTop ℚ).1 instC1.dimension = true ∧
    is_valid_tour (solve_hybrid_algorithm (fun q => q) (fun _ => 0) instC1).1
      instC1.dimension = true :=
  ⟨solvers_return_valid_tours.1 instC1 (by rw [hk_instC1]; simp),
   solvers_return_valid_tours.2.1 (fun q => q) instC1 _ mst_instC1,
   solvers_return_valid_tours.2.2 (fun q => q) (fun _ => 0) instC1 (by decide)⟩
